import Mathlib

/-!
Verification development for the pywebview JS-host bridge core
(`webview/util.py`, `webview/dom/event.py`).

Python strings are modelled as `List Char` (`PyStr`); Python lists as Lean
lists; Python dicts as association lists with insertion-order update
semantics (`dinsert`); fallible Python code returns `Except`; machine-level
concerns (threads) are modelled by recording the spawned work as data in the
produced effect record.
-/

abbrev PyStr := List Char

/-- `str.replace(old, new)` for a single-character pattern: every occurrence
of the character `c` is replaced by the string `r`. -/
def replaceChar (c : Char) (r : List Char) : List Char → List Char
  | [] => []
  | x :: xs => (if x = c then r else [x]) ++ replaceChar c r xs

/-- `list.remove(x)`: removes the first element equal to `x`.  (Python raises
`ValueError` when `x` is absent; every call site in the modelled code first
establishes membership, so absence is modelled as a no-op.) -/
def pyRemove [DecidableEq α] (x : α) : List α → List α
  | [] => []
  | y :: ys => if y = x then ys else y :: pyRemove x ys

/-- Python dict insertion `d[k] = v`: replaces the value in place when the key
exists (keeping its position), otherwise appends the new binding at the end
(insertion order). -/
def dinsert [DecidableEq κ] (k : κ) (v : β) : List (κ × β) → List (κ × β)
  | [] => [(k, v)]
  | (k', v') :: rest => if k' = k then (k', v) :: rest else (k', v') :: dinsert k v rest

/-- Python dict lookup `d.get(k)` on an association list. -/
def alookup [DecidableEq κ] (k : κ) : List (κ × β) → Option β
  | [] => none
  | (k', v) :: rest => if k' = k then some v else alookup k rest

/-- Python `del d[k]`: removes the binding of `k`.  (Call sites guard the
`KeyError` case, so absence is a no-op here.) -/
def pyDictDel [DecidableEq κ] (k : κ) : List (κ × β) → List (κ × β)
  | [] => []
  | (k', v) :: rest => if k' = k then rest else (k', v) :: pyDictDel k rest

/-- Python `list.insert(i, x)`: inserts before position `i`, appending when
`i` is past the end. -/
def listInsert (i : Nat) (x : α) : List α → List α
  | [] => [x]
  | y :: ys =>
    match i with
    | 0 => x :: y :: ys
    | n + 1 => y :: listInsert n x ys

/-- `name.startswith('_')` on the modelled strings. -/
def underscored : PyStr → Bool
  | '_' :: _ => true
  | _ => false

/-! ### `escape_string` (util.py lines 328-331)

`string.replace('\\', '\\\\').replace('"', r'\"').replace('\n', r'\n').replace('\r', r'\r')`,
i.e. backslash is doubled first, then double quote, newline and carriage
return are replaced by two-character escape sequences. -/

def escape_string (s : PyStr) : PyStr :=
  replaceChar '\r' ['\\', 'r']
    (replaceChar '\n' ['\\', 'n']
      (replaceChar '"' ['\\', '"']
        (replaceChar '\\' ['\\', '\\'] s)))

/-- The per-character effect of the four chained replacements. -/
def escChar (x : Char) : List Char :=
  if x = '\\' then ['\\', '\\']
  else if x = '"' then ['\\', '"']
  else if x = '\n' then ['\\', 'n']
  else if x = '\r' then ['\\', 'r']
  else [x]

/-- Decoder for the two-character escape sequences produced by `escChar`. -/
def unescChar (y : Char) : Char :=
  if y = '\\' then '\\'
  else if y = '"' then '"'
  else if y = 'n' then '\n'
  else if y = 'r' then '\r'
  else y

/-- Left inverse of `escape_string`: consumes a backslash together with the
character that follows it as one escape sequence. -/
def unescape : List Char → List Char
  | [] => []
  | [c] => [c]
  | c₁ :: c₂ :: rest =>
    if c₁ = '\\' then unescChar c₂ :: unescape rest
    else c₁ :: unescape (c₂ :: rest)

/-! ### `sort_js_files` (util.py lines 305-325)

`LOAD_ORDER = {'polyfill': 0, 'api': 1, 'finish': 99}`; files whose stem is
not in `LOAD_ORDER` are collected in discovery order, the known ones are
stably sorted by their order value and then inserted at position
`LOAD_ORDER[stem]` with Python's `list.insert`. -/

/-- `os.path.basename` for POSIX paths: the part after the last `'/'`. -/
def pyBasename (p : PyStr) : PyStr :=
  p.foldl (fun acc c => if c = '/' then [] else acc ++ [c]) []

/-- `str.rfind('.')`: index of the last dot, if any. -/
def rfindDot (b : PyStr) : Option Nat :=
  ((b.enum.filter (fun ic => ic.2 == '.')).getLast?).map Prod.fst

/-- `os.path.splitext(b)[0]` on a bare file name: drops the suffix that
starts at the last dot, unless every character before that dot is itself a
dot (CPython's leading-dots rule). -/
def splitextRoot (b : PyStr) : PyStr :=
  match rfindDot b with
  | none => b
  | some i => if (b.take i).any (fun c => c != '.') then b.take i else b

def jsStem (f : PyStr) : PyStr := splitextRoot (pyBasename f)

def LOAD_ORDER : List (PyStr × Nat) :=
  [("polyfill".data, 0), ("api".data, 1), ("finish".data, 99)]

/-- `LOAD_ORDER[b]`; total via a default that no call site reaches (the keys
looked up are exactly the stems previously found in `LOAD_ORDER`). -/
def loadOrderKey (b : PyStr) : Nat := (alookup b LOAD_ORDER).getD 0

/-- Stable insertion: an element is placed before the first element of
strictly larger-or-equal key only when its key is `≤`, keeping the relative
order of equal keys — models the stability of Python's `sorted`. -/
def insertSortedBy (key : α → Nat) (x : α) : List α → List α
  | [] => [x]
  | y :: ys => if key x ≤ key y then x :: y :: ys else y :: insertSortedBy key x ys

/-- Python's stable `sorted(l, key=...)`. -/
def stableSortBy (key : α → Nat) (l : List α) : List α :=
  l.foldr (insertSortedBy key) []

def sort_js_files (js_files : List PyStr) : List PyStr :=
  let ordered := js_files.filter (fun f => (alookup (jsStem f) LOAD_ORDER).isNone)
  let remaining := js_files.filterMap (fun f =>
    if (alookup (jsStem f) LOAD_ORDER).isNone then none else some (jsStem f, f))
  (stableSortBy (fun x => loadOrderKey x.1) remaining).foldl
    (fun acc bf => listInsert (loadOrderKey bf.1) bf.2 acc) ordered

/-- 98 JS files with stems outside `LOAD_ORDER` (`u0.js` … `u97.js`). -/
def manyUnorderedJs : List PyStr :=
  (List.range 98).map (fun i => 'u' :: (Nat.toDigits 10 i ++ ".js".data))

/-- An input fragment set with `polyfill`, `api`, `finish` and 98 further
fragments. -/
def jsFilesOverflow : List PyStr :=
  "polyfill.js".data :: "api.js".data :: (manyUnorderedJs ++ ["finish.js".data])

/-! ### `DOMEvent.__isub__` (dom/event.py lines 29-35)

Handlers are identified by numeric ids; Python's `in`/`remove` compare
function objects by identity, modelled as id equality.  The element's `off`
method lives in a file outside the modelled sources, so `__isub__` is
parametric in its semantics; the warning branch never invokes it. -/

structure DOMEventSub where
  items : List Nat
deriving DecidableEq

/-- `DOMEvent.__isub__`: removes `item` from `_items` and de-registers it on
the element when present, otherwise logs a warning.  Returns the updated
subscription, the updated element registry and the warnings logged. -/
def domevent_isub (off : List (PyStr × List Nat) → List (PyStr × List Nat))
    (sub : DOMEventSub) (reg : List (PyStr × List Nat)) (item : Nat) :
    DOMEventSub × List (PyStr × List Nat) × List Nat :=
  if item ∈ sub.items then
    (⟨pyRemove item sub.items⟩, off reg, [])
  else
    (sub, reg, [item])

/-! ### JSON values and `json.dumps`

The values crossing the bridge are JSON-compatible; `json.dumps` is
modelled for the standard separators; its string escaping covers the
escape-relevant characters appearing in the claims (backslash, quote,
newline, carriage return, tab). -/

inductive JVal where
  | null
  | bool (b : Bool)
  | num (n : Int)
  | str (s : PyStr)
  | arr (elems : List JVal)
  | obj (fields : List (PyStr × JVal))

def lbraceChar : Char := Char.ofNat 123

def rbraceChar : Char := Char.ofNat 125

def jsonEscapeChar (c : Char) : List Char :=
  if c = '\\' then ['\\', '\\']
  else if c = '"' then ['\\', '"']
  else if c = '\n' then ['\\', 'n']
  else if c = '\r' then ['\\', 'r']
  else if c = '\t' then ['\\', 't']
  else [c]

def jsonEscape (s : PyStr) : PyStr := s.foldr (fun c acc => jsonEscapeChar c ++ acc) []

mutual
def dumps : JVal → PyStr
  | .null => "null".data
  | .bool true => "true".data
  | .bool false => "false".data
  | .num n => (toString n).data
  | .str s => '"' :: (jsonEscape s ++ ['"'])
  | .arr l => '[' :: (dumpsList l ++ [']'])
  | .obj fl => lbraceChar :: (dumpsFields fl ++ [rbraceChar])

def dumpsList : List JVal → PyStr
  | [] => []
  | [v] => dumps v
  | v :: rest => dumps v ++ (", ".data ++ dumpsList rest)

def dumpsFields : List (PyStr × JVal) → PyStr
  | [] => []
  | [(k, v)] => ('"' :: (jsonEscape k ++ ['"'])) ++ (": ".data ++ dumps v)
  | (k, v) :: rest =>
    ('"' :: (jsonEscape k ++ ['"'])) ++ (": ".data ++ (dumps v ++ (", ".data ++ dumpsFields rest)))
end

/-! ### The dispatcher `js_bridge_call` and its worker `_call`
(util.py lines 190-267)

Host-side exceptions are modelled as `PyExc` records carrying `str(e)`,
`type(e).__name__` and `traceback.format_exc()`.  The worker thread spawned
per call is modelled by running its body and recording the single
`evaluate_js` statement it produces; the handler threads are recorded as
data, while the async-callback invocation — inline on the dispatcher's own
thread with no try/except around it — runs the callback's body and lets a
raised exception propagate.  `json.loads` on the async path and
`urllib.parse.unquote` are external library collaborators: the former is
modelled by letting the boundary hand over the already-decoded value, the
latter is a parameter of the dispatcher. -/

structure PyExc where
  message : PyStr
  name : PyStr
  stack : PyStr
deriving DecidableEq

/-- A host callable: positional arguments in, a value out or an exception. -/
def Callable := List JVal → Except PyExc JVal

/-- A node of the exposed `_js_api` object graph as `get_nested_attribute`
sees it: a callable, or an object carrying named attributes. -/
inductive PyObj where
  | callable (f : Callable)
  | obj (attrs : List (PyStr × PyObj))

/-- `getattr(obj, name, None)`: objects expose their attribute map; the
model gives callables no further public attributes. -/
def pyGetattr : PyObj → PyStr → Option PyObj
  | .callable _, _ => none
  | .obj attrs, name => alookup name attrs

/-- `str.split('.')`: always returns at least one (possibly empty) piece. -/
def splitOnDot : PyStr → List PyStr
  | [] => [[]]
  | c :: rest =>
    match splitOnDot rest with
    | [] => [[]]
    | p :: ps => if c = '.' then [] :: p :: ps else (c :: p) :: ps

/-- `get_nested_attribute` body: walk the pieces with
`getattr(obj, attr, None)`, short-circuiting to `None` when an intermediate
attribute is missing. -/
def getNestedGo : List PyStr → PyObj → Option PyObj
  | [], obj => some obj
  | a :: rest, obj =>
    match pyGetattr obj a with
    | none => none
    | some o => getNestedGo rest o

def get_nested_attribute (root : PyObj) (attr_str : PyStr) : Option PyObj :=
  getNestedGo (splitOnDot attr_str) root

/-- Resolution order of the dispatcher (line 255):
`window._functions.get(func_name) or get_nested_attribute(window._js_api, func_name)`. -/
def resolveFunc (fns : List (PyStr × Callable)) (api : PyObj) (fn : PyStr) : Option PyObj :=
  match alookup fn fns with
  | some f => some (.callable f)
  | none => get_nested_attribute api fn

/-- `func(*func_params)`: calling a non-callable raises `TypeError`. -/
def callPyObj : PyObj → List JVal → Except PyExc JVal
  | .callable f, args => f args
  | .obj _, _ => .error ⟨"object is not callable".data, "TypeError".data, "Traceback".data⟩

/-- The result-delivery statement that `_call` hands to `evaluate_js`:
`window.pywebview._returnValues[func_name][value_id] = ...`, recorded
structurally (slot address, error flag, embedded escaped payload). -/
structure Stmt where
  func_name : PyStr
  value_id : PyStr
  isError : Bool
  value : PyStr
deriving DecidableEq

/-- The escaping `_call` applies to the serialized payload before embedding:
`.replace('\\', '\\\\').replace("'", "\\'")`. -/
def pyBridgeEscape (s : PyStr) : PyStr :=
  replaceChar '\'' ['\\', '\''] (replaceChar '\\' ['\\', '\\'] s)

/-- The error payload built in `_call`'s except branch:
`{'message': str(e), 'name': type(e).__name__, 'stack': traceback.format_exc()}`. -/
def errObj (e : PyExc) : JVal :=
  .obj [("message".data, .str e.message), ("name".data, .str e.name),
        ("stack".data, .str e.stack)]

inductive LogEntry where
  | execTrace (stack : PyStr)
  | funcNotFound (name : PyStr)
  | asyncNotCallable
  | dispatchError (name : PyStr)
deriving DecidableEq

/-- The worker body `_call`: run the callable, serialize the result or the
caught exception, and produce exactly one result-delivery statement (plus
the log line written in the error branch). -/
def callWorker (func : PyObj) (func_params : List JVal) (fn vid : PyStr) :
    Stmt × List LogEntry :=
  match callPyObj func func_params with
  | .ok r =>
    ({func_name := fn, value_id := vid, isError := false,
      value := pyBridgeEscape (dumps r)}, [])
  | .error e =>
    ({func_name := fn, value_id := vid, isError := true,
      value := pyBridgeEscape (dumps (errObj e))}, [.execTrace e.stack])

/-- An in-memory dropped-file descriptor (`file` dict of the drop event). -/
structure FileDesc where
  name : PyStr
  pywebviewFullPath : Option PyStr
deriving DecidableEq

/-- One iteration of the drop loop (lines 226-232): collect the
`_dnd_state['paths']` entries whose percent-decoded key equals the file's
name; on a match attach the decoded path of the first one and remove that
entry (`list.remove` deletes the first equal element, which is exactly that
first match). -/
def processDropFile (unquote : PyStr → PyStr) (paths : List (PyStr × PyStr))
    (f : FileDesc) : List (PyStr × PyStr) × FileDesc :=
  match paths.filter (fun it => unquote it.1 == f.name) with
  | [] => (paths, f)
  | p :: _ => (pyRemove p paths, {f with pywebviewFullPath := some (unquote p.2)})

/-- The drop branch folds the loop body over the event's files, threading
the shared registry. -/
def processDropFiles (unquote : PyStr → PyStr) (paths : List (PyStr × PyStr)) :
    List FileDesc → List (PyStr × PyStr) × List FileDesc
  | [] => (paths, [])
  | f :: rest =>
    let pf := processDropFile unquote paths f
    let pr := processDropFiles unquote pf.1 rest
    (pr.1, pf.2 :: pr.2)

/-- The DOM event payload `{event: {type, dataTransfer.files}, nodeId}`. -/
structure EventParam where
  eventType : PyStr
  files : List FileDesc
  nodeId : Nat
deriving DecidableEq

/-- A host-side element proxy: its `_event_handlers` registry, handlers
identified by numeric ids. -/
structure Element where
  event_handlers : List (PyStr × List Nat)
deriving DecidableEq

/-- An entry of `window._callbacks`: the host-side callback object,
identified by an id, together with the result of Python's `callable()`
check and the behaviour of calling it — `window._callbacks[value_id](value)`
is invoked inline with no surrounding try/except, so the call's body may
raise (`run` returning an exception). -/
structure CallbackSlot where
  cbId : Nat
  isCallable : Bool
  run : Option JVal → Except PyExc Unit

/-- The boundary-supplied `param`, shaped per privileged branch. -/
inductive Param where
  | args (l : List JVal)
  | event (ev : EventParam)
  | asyncValue (v : Option JVal)

/-- The slice of window state the dispatcher reads and writes. -/
structure Window where
  functions : List (PyStr × Callable)
  js_api : PyObj
  callbacks : List (PyStr × CallbackSlot)
  elements : List (Nat × Element)
  dndPaths : List (PyStr × PyStr)

/-- Observable effects of one dispatch: evaluated result statements, log
lines, window moves, handler threads spawned (handler id with the event
they receive), async callbacks invoked (callback id with the decoded
value), and the updated window state. -/
structure BridgeOut where
  emitted : List Stmt
  logs : List LogEntry
  moved : List (List JVal)
  handlersRun : List (Nat × EventParam)
  callbacksRun : List (Nat × Option JVal)
  window : Window

def privilegedNames : List PyStr :=
  ["pywebviewMoveWindow".data, "pywebviewEventHandler".data,
   "pywebviewAsyncCallback".data]

/-- The positional arguments carried by `param` where a branch unpacks them. -/
def paramArgsOf : Param → List JVal
  | .args l => l
  | _ => []

def js_bridge_call (unquote : PyStr → PyStr) (w : Window)
    (func_name : PyStr) (param : Param) (value_id : PyStr) :
    Except PyExc BridgeOut :=
  if func_name = "pywebviewMoveWindow".data then
    .ok {emitted := [], logs := [], moved := [paramArgsOf param],
         handlersRun := [], callbacksRun := [], window := w}
  else if func_name = "pywebviewEventHandler".data then
    match param with
    | .event ev =>
      match alookup ev.nodeId w.elements with
      | none =>
        .ok {emitted := [], logs := [], moved := [], handlersRun := [],
             callbacksRun := [], window := w}
      | some el =>
        let pf :=
          if ev.eventType = "drop".data then
            processDropFiles unquote w.dndPaths ev.files
          else (w.dndPaths, ev.files)
        let ev' : EventParam := {ev with files := pf.2}
        let handlers := (alookup ev.eventType el.event_handlers).getD []
        .ok {emitted := [], logs := [], moved := [],
             handlersRun := handlers.map (fun h => (h, ev')),
             callbacksRun := [], window := {w with dndPaths := pf.1}}
    | _ =>
      .ok {emitted := [], logs := [], moved := [], handlersRun := [],
           callbacksRun := [], window := w}
  else if func_name = "pywebviewAsyncCallback".data then
    let value := match param with | .asyncValue v => v | _ => none
    match alookup value_id w.callbacks with
    | none =>
      .error ⟨value_id, "KeyError".data, "Traceback".data⟩
    | some slot =>
      if slot.isCallable then
        match slot.run value with
        | .error e =>
          -- the inline call raised: `del window._callbacks[value_id]` on the
          -- next line is never reached and the exception propagates
          .error e
        | .ok _ =>
          .ok {emitted := [], logs := [], moved := [], handlersRun := [],
               callbacksRun := [(slot.cbId, value)],
               window := {w with callbacks := pyDictDel value_id w.callbacks}}
      else
        .ok {emitted := [], logs := [LogEntry.asyncNotCallable], moved := [],
             handlersRun := [], callbacksRun := [],
             window := {w with callbacks := pyDictDel value_id w.callbacks}}
  else
    match resolveFunc w.functions w.js_api func_name with
    | some func =>
      let sl := callWorker func (paramArgsOf param) func_name value_id
      .ok {emitted := [sl.1], logs := sl.2, moved := [], handlersRun := [],
           callbacksRun := [], window := w}
    | none =>
      .ok {emitted := [], logs := [LogEntry.funcNotFound func_name],
           moved := [], handlersRun := [], callbacksRun := [], window := w}

/-- A window with nothing registered. -/
def w0 : Window :=
  {functions := [], js_api := .obj [], callbacks := [], elements := [],
   dndPaths := []}

/-! ### `get_functions` / `generate_func` (util.py lines 135-187)

The exposed object graph is modelled as a finite heap: `n` objects
addressed by `Fin n`, each carrying its `dir()` listing as a list of named
attributes.  Python's `obj in exposed_objects` check compares the object
itself (identity for objects without custom equality), modelled as
membership of the object's heap address in the visited list.  An attribute
is classified as the code's branches do:

- a bound method (`inspect.ismethod`), carrying the declared positional
  parameter names of `inspect.getfullargspec(...).args` including the
  implicit receiver, which `get_args(attr)[1:]` drops;
- a reference to another object that the `elif` branch recurses into
  (a class, or a non-callable object exposing `__module__`);
- anything else, which the loop skips.

Python's recursion carries no fuel; the model makes the recursion depth
explicit and the termination theorem shows `n + 1` fuel always suffices,
which is exactly the claim that the walk terminates. -/

inductive HAttr (n : Nat) where
  | method (params : List PyStr)
  | objRef (target : Fin n)
  | other
deriving DecidableEq

structure HObj (n : Nat) where
  attrs : List (PyStr × HAttr n)
deriving DecidableEq

abbrev Heap (n : Nat) := Fin n → HObj n

/-- `full_name = f"{base_name}.{name}" if base_name else name`. -/
def fullNameOf (base name : PyStr) : PyStr :=
  if base = [] then name else base ++ '.' :: name

mutual
/-- `get_functions(obj, base_name, functions)`: bail out on an
already-visited object, otherwise record it and walk its attributes.  The
`exposed_objects` list and the `functions` dict are threaded through as the
shared state they are in the source. -/
def get_functions (heap : Heap n) : Nat → Fin n → PyStr → List (Fin n) →
    List (PyStr × List PyStr) →
    Option (List (Fin n) × List (PyStr × List PyStr))
  | 0, _, _, _, _ => none
  | fuel + 1, oid, base, visited, fns =>
    if oid ∈ visited then some (visited, fns)
    else walkAttrs heap fuel (heap oid).attrs base (visited ++ [oid]) fns

/-- The `for name in dir(obj)` loop of `get_functions`. -/
def walkAttrs (heap : Heap n) : Nat → List (PyStr × HAttr n) → PyStr →
    List (Fin n) → List (PyStr × List PyStr) →
    Option (List (Fin n) × List (PyStr × List PyStr))
  | _, [], _, visited, fns => some (visited, fns)
  | fuel, (name, attr) :: rest, base, visited, fns =>
    if underscored name then walkAttrs heap fuel rest base visited fns
    else
      match attr with
      | .method params =>
        walkAttrs heap fuel rest base visited
          (dinsert (fullNameOf base name) (params.drop 1) fns)
      | .objRef tid =>
        match get_functions heap fuel tid (fullNameOf base name) visited fns with
        | none => none
        | some vf => walkAttrs heap fuel rest base vf.1 vf.2
      | .other => walkAttrs heap fuel rest base visited fns
end

/-- The attribute-walk edges the recursion follows: a public attribute of
`i` referencing `j`. -/
def edgeTo (heap : Heap n) (i j : Fin n) : Prop :=
  ∃ a ∈ (heap i).attrs, a.2 = HAttr.objRef j ∧ ¬underscored a.1

/-- Number of public bound-method attributes in an attribute list. -/
def pubMethods (attrs : List (PyStr × HAttr n)) : Nat :=
  (attrs.filter (fun a =>
    !underscored a.1 && match a.2 with | .method _ => true | _ => false)).length

/-- Number of public bound-method attributes of one object. -/
def mcount (heap : Heap n) (j : Fin n) : Nat :=
  pubMethods (heap j).attrs

/-- The root call `get_functions(window._js_api)` with the sufficient fuel
`n + 1`. -/
def getFunctionsRun (heap : Heap n) (root : Fin n) :
    Option (List (Fin n) × List (PyStr × List PyStr)) :=
  get_functions heap (n + 1) root [] [] []

/-- `functions.update(expose_functions)`: fold the dict-insertions of the
right dict over the left one. -/
def dictUpdate [DecidableEq κ] (d other : List (κ × β)) : List (κ × β) :=
  other.foldl (fun acc kv => dinsert kv.1 kv.2 acc) d

/-- `generate_func`: the reflective walk, then the merge of the ad-hoc
`window._functions` registry (whose values are the `get_args` parameter
lists of the registered plain functions, receiver-free). -/
def generate_func (heap : Heap n) (root : Fin n)
    (windowFns : List (PyStr × List PyStr)) :
    Option (List (PyStr × List PyStr)) :=
  match getFunctionsRun heap root with
  | none => none
  | some vf =>
    let expose := if 0 < windowFns.length then windowFns else []
    some (dictUpdate vf.2 expose)

/-- Well-formedness facts `dir()` guarantees: the attribute names of an
object are distinct identifiers — in particular non-empty and dot-free. -/
def heapWF (heap : Heap n) : Prop :=
  ∀ i : Fin n, ((heap i).attrs.map Prod.fst).Nodup ∧
    ∀ a ∈ (heap i).attrs, ('.' : Char) ∉ a.1 ∧ a.1 ≠ []

/-- Number of heap objects not yet in the visited list — the measure that
shrinks whenever the walk enters a fresh object. -/
def unvisitedCount (visited : List (Fin n)) : Nat :=
  (Finset.univ.filter (fun i : Fin n => i ∉ visited)).card

/-- Inverse of `splitOnDot`: rejoin pieces with dots. -/
def joinDots : List PyStr → PyStr
  | [] => []
  | [p] => p
  | p :: ps => p ++ '.' :: joinDots ps

/-- `pre` is an initial segment of `l`. -/
def leads (pre l : List PyStr) : Prop := ∃ t, l = pre ++ t

/-- The dotted-name components of a `base_name`, the empty base denoting the
root (no components). -/
def basePathOf (base : PyStr) : List PyStr :=
  if base = [] then [] else splitOnDot base

instance edgeToDecidable (heap : Heap n) (i j : Fin n) :
    Decidable (edgeTo heap i j) := by
  unfold edgeTo
  infer_instance

instance heapWFDecidable (heap : Heap n) : Decidable (heapWF heap) := by
  unfold heapWF
  infer_instance

/-- A concrete two-object exposed graph: the root exposes a private method,
a public method `add(self, a, b)` and a child object whose `mul(self, x)`
is reachable as `child.mul`. -/
def heapW : Heap 2 :=
  ![⟨[("_priv".data, HAttr.method ["self".data]),
      ("add".data, HAttr.method ["self".data, "a".data, "b".data]),
      ("child".data, HAttr.objRef 1)]⟩,
    ⟨[("mul".data, HAttr.method ["self".data, "x".data])]⟩]

theorem replaceChar_append (c : Char) (r a b : List Char) :
    replaceChar c r (a ++ b) = replaceChar c r a ++ replaceChar c r b := by
  induction a with
  | nil => rfl
  | cons x xs ih => simp [replaceChar, ih]

theorem escape_string_nil : escape_string [] = [] := rfl

theorem escape_string_cons (x : Char) (s : PyStr) :
    escape_string (x :: s) = escChar x ++ escape_string s := by
  show escape_string ([x] ++ s) = _
  by_cases h1 : x = '\\'
  · subst h1; simp [escape_string, replaceChar, replaceChar_append, escChar]
  · by_cases h2 : x = '"'
    · subst h2; simp [escape_string, replaceChar, replaceChar_append, escChar]
    · by_cases h3 : x = '\n'
      · subst h3; simp [escape_string, replaceChar, replaceChar_append, escChar]
      · by_cases h4 : x = '\r'
        · subst h4; simp [escape_string, replaceChar, replaceChar_append, escChar]
        · simp [escape_string, replaceChar, replaceChar_append, escChar, h1, h2, h3, h4]

theorem unescape_escChar (x : Char) (t : List Char) :
    unescape (escChar x ++ t) = x :: unescape t := by
  by_cases h1 : x = '\\'
  · subst h1; simp [escChar, unescape, unescChar]
  · by_cases h2 : x = '"'
    · subst h2; simp [escChar, unescape, unescChar]
    · by_cases h3 : x = '\n'
      · subst h3; simp [escChar, unescape, unescChar]
      · by_cases h4 : x = '\r'
        · subst h4; simp [escChar, unescape, unescChar]
        · have hx : escChar x = [x] := by simp [escChar, h1, h2, h3, h4]
          rw [hx]
          cases t with
          | nil => rfl
          | cons d t' => simp [unescape, h1]

theorem unescape_escape (s : PyStr) : unescape (escape_string s) = s := by
  induction s with
  | nil => rfl
  | cons x xs ih => rw [escape_string_cons, unescape_escChar, ih]

/-- C10: the result-string escaping function `escape_string` (backslash
doubled first, then quote, newline and carriage return escaped) is injective:
distinct input strings always produce distinct escaped outputs. -/
theorem escape_string_injective (a b : PyStr) (h : escape_string a = escape_string b) :
    a = b := by
  have h' := congrArg unescape h
  rwa [unescape_escape, unescape_escape] at h'

/-- Witness for C10 at a concrete input containing a backslash and a newline. -/
theorem escape_string_injective_witness :
    escape_string ['\\', 'n'] = ['\\', '\\', 'n'] ∧
      (escape_string ['\\', 'n'] = escape_string ['\\', 'n'] → ['\\', 'n'] = ['\\', 'n']) :=
  ⟨by decide, escape_string_injective ['\\', 'n'] ['\\', 'n']⟩

theorem insertSortedBy_perm (key : α → Nat) (x : α) (l : List α) :
    (insertSortedBy key x l).Perm (x :: l) := by
  induction l with
  | nil => exact List.Perm.refl _
  | cons y ys ih =>
    by_cases h : key x ≤ key y
    · simp [insertSortedBy, h]
    · simp only [insertSortedBy, if_neg h]
      exact (ih.cons y).trans (List.Perm.swap x y ys)

theorem stableSortBy_perm (key : α → Nat) (l : List α) :
    (stableSortBy key l).Perm l := by
  induction l with
  | nil => exact List.Perm.refl _
  | cons x xs ih =>
    exact (insertSortedBy_perm key x (stableSortBy key xs)).trans (ih.cons x)

theorem listInsert_perm (i : Nat) (x : α) (l : List α) :
    (listInsert i x l).Perm (x :: l) := by
  induction l generalizing i with
  | nil => simp [listInsert]
  | cons y ys ih =>
    match i with
    | 0 => exact List.Perm.refl _
    | n + 1 =>
      simp only [listInsert]
      exact ((ih n).cons y).trans (List.Perm.swap x y ys)

theorem foldl_listInsert_perm (rem : List (PyStr × PyStr)) (acc : List PyStr) :
    (rem.foldl (fun acc bf => listInsert (loadOrderKey bf.1) bf.2 acc) acc).Perm
      (rem.map Prod.snd ++ acc) := by
  induction rem generalizing acc with
  | nil => exact List.Perm.refl _
  | cons bf rest ih =>
    simp only [List.foldl_cons, List.map_cons, List.cons_append]
    refine (ih _).trans ?_
    refine (List.Perm.append_left _ (listInsert_perm _ _ _)).trans ?_
    exact List.perm_middle

theorem map_snd_filterMap_stem (l : List PyStr) :
    (l.filterMap (fun f =>
        if (alookup (jsStem f) LOAD_ORDER).isNone then none
        else some (jsStem f, f))).map Prod.snd
      = l.filter (fun f => !(alookup (jsStem f) LOAD_ORDER).isNone) := by
  induction l with
  | nil => rfl
  | cons f fs ih =>
    cases h : alookup (jsStem f) LOAD_ORDER with
    | none =>
      simp only [List.filterMap_cons, List.filter_cons, h]
      simpa using ih
    | some k =>
      simp only [List.filterMap_cons, List.filter_cons, h]
      simp
      simpa using ih

/-- C8: `sort_js_files` returns a permutation of its input: every input path
appears exactly once in the output (with multiplicity) and no other path
appears. -/
theorem sort_js_files_perm (l : List PyStr) : (sort_js_files l).Perm l := by
  unfold sort_js_files
  refine (foldl_listInsert_perm _ _).trans ?_
  refine (List.Perm.append_right _
    ((stableSortBy_perm _ _).map Prod.snd)).trans ?_
  rw [map_snd_filterMap_stem]
  refine (List.perm_append_comm).trans ?_
  have := List.filter_append_perm
    (fun f => (alookup (jsStem f) LOAD_ORDER).isNone) l
  simpa using this

/-- C5 (failing input): with 98 fragments besides `polyfill`, `api` and
`finish`, the assembled order does not place `finish` last — `list.insert`
at the hard-coded position 99 lands before the 98th unordered fragment,
contradicting the function's own docstring ("finally finish.js"). -/
theorem sort_js_files_finish_not_last :
    (sort_js_files jsFilesOverflow).getLast?
        = some ('u' :: (Nat.toDigits 10 97 ++ ".js".data)) ∧
      ('u' :: (Nat.toDigits 10 97 ++ ".js".data)) ≠ "finish.js".data ∧
      "finish.js".data ∈ jsFilesOverflow ∧
      (sort_js_files jsFilesOverflow).length = jsFilesOverflow.length := by
  decide

/-- C9: applying `-=` with a handler that is not currently registered leaves
the subscription's handler list and the element's event-handler registry
unchanged, logs a warning, and raises no exception (the operation is total
and returns normally), whatever the element's `off` method does. -/
theorem domevent_isub_not_registered
    (off : List (PyStr × List Nat) → List (PyStr × List Nat))
    (sub : DOMEventSub) (reg : List (PyStr × List Nat)) (item : Nat)
    (h : item ∉ sub.items) :
    domevent_isub off sub reg item = (sub, reg, [item]) := by
  simp [domevent_isub, h]

/-- Witness for C9: handler 2 is not registered on a subscription holding
handler 1; `-=` leaves everything unchanged and logs the warning. -/
theorem domevent_isub_not_registered_witness :
    (2 : Nat) ∉ (⟨[1]⟩ : DOMEventSub).items ∧
      domevent_isub id ⟨[1]⟩ [("click".data, [1])] 2
        = (⟨[1]⟩, [("click".data, [1])], [2]) :=
  ⟨by decide, domevent_isub_not_registered id ⟨[1]⟩ [("click".data, [1])] 2 (by decide)⟩

theorem alookup_pyDictDel_self [DecidableEq κ] (k : κ) (l : List (κ × β))
    (h : (l.map Prod.fst).Nodup) : alookup k (pyDictDel k l) = none := by
  induction l with
  | nil => rfl
  | cons kv rest ih =>
    obtain ⟨k', v⟩ := kv
    simp only [List.map_cons, List.nodup_cons] at h
    by_cases hk : k' = k
    · subst hk
      simp only [pyDictDel, if_pos rfl]
      clear ih
      induction rest with
      | nil => rfl
      | cons kv' rest' ih' =>
        obtain ⟨k'', v'⟩ := kv'
        simp only [List.map_cons, List.mem_cons, not_or] at h
        have hne : k'' ≠ k' := fun he => h.1.1 he.symm
        simp only [alookup, if_neg hne]
        exact ih' ⟨fun hm => h.1.2 hm, (List.nodup_cons.mp h.2).2⟩
    · simp only [pyDictDel, if_neg hk, alookup, if_neg hk]
      exact ih h.2

theorem privileged_not_mem_elim {fn : PyStr} (h : fn ∉ privilegedNames) :
    fn ≠ "pywebviewMoveWindow".data ∧ fn ≠ "pywebviewEventHandler".data ∧
      fn ≠ "pywebviewAsyncCallback".data := by
  simp only [privilegedNames, List.mem_cons, List.mem_singleton, not_or] at h
  exact ⟨h.1, h.2.1, by simpa using h.2.2⟩

/-- C1: for a dispatched call whose name is not one of the three privileged
names, if the name resolves — to a registered ad-hoc function or to an
attribute reachable on the exposed object graph — the dispatcher returns
normally having produced exactly one result-delivery statement, addressed
by the call's function name and correlation id; if the name is unresolvable,
the failure is logged and no result-delivery statement is produced. -/
theorem js_bridge_call_delivery (unquote : PyStr → PyStr) (w : Window)
    (fn : PyStr) (p : Param) (vid : PyStr) (hpriv : fn ∉ privilegedNames) :
    (∀ func, resolveFunc w.functions w.js_api fn = some func →
      ∃ out, js_bridge_call unquote w fn p vid = .ok out ∧
        out.emitted.length = 1 ∧
        ∀ s ∈ out.emitted, s.func_name = fn ∧ s.value_id = vid) ∧
    (resolveFunc w.functions w.js_api fn = none →
      js_bridge_call unquote w fn p vid =
        .ok {emitted := [], logs := [.funcNotFound fn], moved := [],
             handlersRun := [], callbacksRun := [], window := w}) := by
  obtain ⟨h1, h2, h3⟩ := privileged_not_mem_elim hpriv
  constructor
  · intro func hres
    refine ⟨{emitted := [(callWorker func (paramArgsOf p) fn vid).1],
             logs := (callWorker func (paramArgsOf p) fn vid).2,
             moved := [], handlersRun := [], callbacksRun := [],
             window := w}, ?_, rfl, ?_⟩
    · simp only [js_bridge_call, if_neg h1, if_neg h2, if_neg h3, hres]
    · intro s hs
      simp only [List.mem_singleton] at hs
      subst hs
      cases hcall : callPyObj func (paramArgsOf p) with
      | ok r => simp [callWorker, hcall]
      | error e => simp [callWorker, hcall]
  · intro hres
    simp only [js_bridge_call, if_neg h1, if_neg h2, if_neg h3, hres]

/-- Witness for C1: a registered function `greet` resolves and yields one
statement; the unregistered name `nope` yields none and a log entry. -/
theorem js_bridge_call_delivery_witness :
    (let w : Window := {functions := [("greet".data, fun _ => .ok (.str "hello".data))],
                        js_api := .obj [], callbacks := [], elements := [], dndPaths := []};
     "greet".data ∉ privilegedNames ∧
     resolveFunc w.functions w.js_api "greet".data
        = some (.callable (fun _ => .ok (.str "hello".data))) ∧
     (∃ out, js_bridge_call id w "greet".data (.args []) "abc".data = .ok out ∧
        out.emitted.length = 1 ∧
        ∀ s ∈ out.emitted, s.func_name = "greet".data ∧ s.value_id = "abc".data)) ∧
    ("nope".data ∉ privilegedNames ∧
     js_bridge_call id w0 "nope".data (.args []) "abc".data =
        .ok {emitted := [], logs := [.funcNotFound "nope".data], moved := [],
             handlersRun := [], callbacksRun := [], window := w0}) := by
  refine ⟨⟨by decide, rfl, ?_⟩, by decide, ?_⟩
  · exact (js_bridge_call_delivery id _ "greet".data (.args []) "abc".data
      (by decide)).1 _ rfl
  · exact (js_bridge_call_delivery id w0 "nope".data (.args []) "abc".data
      (by decide)).2 rfl

/-- C2: when the resolved host callable raises during dispatched execution,
the dispatcher still returns normally (the exception does not propagate to
the caller/UI thread) and delivers exactly one statement into the same
function-name/correlation-id result slot, with the `isError` flag set and a
payload serializing the error's message, its type name and the diagnostic
trace. -/
theorem js_bridge_call_error_capture (unquote : PyStr → PyStr) (w : Window)
    (fn : PyStr) (p : Param) (vid : PyStr) (func : PyObj) (e : PyExc)
    (hpriv : fn ∉ privilegedNames)
    (hres : resolveFunc w.functions w.js_api fn = some func)
    (hraise : callPyObj func (paramArgsOf p) = .error e) :
    js_bridge_call unquote w fn p vid =
      .ok {emitted := [{func_name := fn, value_id := vid, isError := true,
                        value := pyBridgeEscape (dumps (JVal.obj
                          [("message".data, .str e.message),
                           ("name".data, .str e.name),
                           ("stack".data, .str e.stack)]))}],
           logs := [.execTrace e.stack], moved := [], handlersRun := [],
           callbacksRun := [], window := w} := by
  obtain ⟨h1, h2, h3⟩ := privileged_not_mem_elim hpriv
  simp only [js_bridge_call, if_neg h1, if_neg h2, if_neg h3, hres,
    callWorker, hraise, errObj]

/-- Witness for C2: a registered callable that raises `ValueError` produces
the `isError` result statement and no escaping exception. -/
theorem js_bridge_call_error_capture_witness :
    (let boom : Callable := fun _ =>
        .error ⟨"bad value".data, "ValueError".data, "trace".data⟩;
     let w : Window := {functions := [("boom".data, boom)], js_api := .obj [],
                        callbacks := [], elements := [], dndPaths := []};
     js_bridge_call id w "boom".data (.args []) "xyz".data =
      .ok {emitted := [{func_name := "boom".data, value_id := "xyz".data,
                        isError := true,
                        value := pyBridgeEscape (dumps (JVal.obj
                          [("message".data, .str "bad value".data),
                           ("name".data, .str "ValueError".data),
                           ("stack".data, .str "trace".data)]))}],
           logs := [.execTrace "trace".data], moved := [], handlersRun := [],
           callbacksRun := [],
           window := {functions := [("boom".data, boom)], js_api := .obj [],
                      callbacks := [], elements := [], dndPaths := []}}) := by
  exact js_bridge_call_error_capture id _ "boom".data (.args []) "xyz".data
    (.callable (fun _ => .error ⟨"bad value".data, "ValueError".data, "trace".data⟩))
    ⟨"bad value".data, "ValueError".data, "trace".data⟩
    (by decide) rfl rfl

/-- C3 (counterexample): delivering an async result for an unknown
correlationId is not a logged no-op — `window._callbacks[value_id]` raises
`KeyError`, which propagates out of the dispatcher. -/
theorem async_callback_unknown_id_raises :
    js_bridge_call id w0 "pywebviewAsyncCallback".data (.asyncValue none)
        "c1".data
      = .error ⟨"c1".data, "KeyError".data, "Traceback".data⟩ := rfl

/-- C3 (amended): delivering an async result for a correlationId whose
registered callback passes the `callable()` check invokes that callback
exactly once with the decoded value; when the callback returns normally
the registration is removed, but when the callback's inline, unguarded
invocation raises, the exception propagates out of the dispatcher and the
`del` on the following line is never reached; for a registered but
non-callable entry the failure is logged and the entry is still removed
without any invocation; for an unknown correlationId — including one
already resolved, whose entry was removed — the dispatcher raises
`KeyError` instead of logging. -/
theorem async_callback_behaviour (unquote : PyStr → PyStr) (w : Window)
    (vid : PyStr) (v : Option JVal)
    (hnodup : (w.callbacks.map Prod.fst).Nodup) :
    (∀ slot, alookup vid w.callbacks = some slot → slot.isCallable = true →
      slot.run v = .ok () →
      ∃ out, js_bridge_call unquote w "pywebviewAsyncCallback".data
          (.asyncValue v) vid = .ok out ∧
        out.callbacksRun = [(slot.cbId, v)] ∧
        alookup vid out.window.callbacks = none) ∧
    (∀ slot e, alookup vid w.callbacks = some slot → slot.isCallable = true →
      slot.run v = .error e →
      js_bridge_call unquote w "pywebviewAsyncCallback".data (.asyncValue v)
          vid = .error e) ∧
    (∀ slot, alookup vid w.callbacks = some slot → slot.isCallable = false →
      ∃ out, js_bridge_call unquote w "pywebviewAsyncCallback".data
          (.asyncValue v) vid = .ok out ∧
        out.callbacksRun = [] ∧ out.logs = [.asyncNotCallable] ∧
        alookup vid out.window.callbacks = none) ∧
    (alookup vid w.callbacks = none →
      js_bridge_call unquote w "pywebviewAsyncCallback".data (.asyncValue v)
          vid = .error ⟨vid, "KeyError".data, "Traceback".data⟩) := by
  have hm : ¬("pywebviewAsyncCallback".data = "pywebviewMoveWindow".data) := by decide
  have he : ¬("pywebviewAsyncCallback".data = "pywebviewEventHandler".data) := by decide
  refine ⟨?_, ?_, ?_, ?_⟩
  · intro slot hslot hcall hrun
    refine ⟨{emitted := [], logs := [], moved := [], handlersRun := [],
             callbacksRun := [(slot.cbId, v)],
             window := {w with callbacks := pyDictDel vid w.callbacks}},
            ?_, rfl, ?_⟩
    · simp only [js_bridge_call, if_neg hm, if_neg he, if_pos rfl, hslot,
        hcall, hrun]
      simp
    · simpa using alookup_pyDictDel_self vid w.callbacks hnodup
  · intro slot e hslot hcall hrun
    simp only [js_bridge_call, if_neg hm, if_neg he, if_pos rfl, hslot,
      hcall, hrun]
    simp
  · intro slot hslot hcall
    refine ⟨{emitted := [], logs := [.asyncNotCallable], moved := [],
             handlersRun := [], callbacksRun := [],
             window := {w with callbacks := pyDictDel vid w.callbacks}},
            ?_, rfl, rfl, ?_⟩
    · simp only [js_bridge_call, if_neg hm, if_neg he, if_pos rfl, hslot, hcall]
      simp
    · simpa using alookup_pyDictDel_self vid w.callbacks hnodup
  · intro hnone
    simp only [js_bridge_call, if_neg hm, if_neg he, if_pos rfl, hnone]
    simp

/-- Witness for C3 (amended): a normally returning callable callback (id 7)
under correlationId `c1` is invoked once with the value and its entry
removed; a callback that raises `RuntimeError` propagates the exception out
of the dispatcher. -/
theorem async_callback_behaviour_witness :
    (let w : Window := {functions := [], js_api := .obj [],
                        callbacks := [("c1".data,
                          ⟨7, true, fun _ => .ok ()⟩)],
                        elements := [], dndPaths := []};
     ∃ out, js_bridge_call id w "pywebviewAsyncCallback".data
          (.asyncValue (some (.num 3))) "c1".data = .ok out ∧
        out.callbacksRun = [(7, some (.num 3))] ∧
        alookup "c1".data out.window.callbacks = none) ∧
    (let wraise : Window := {functions := [], js_api := .obj [],
                             callbacks := [("c1".data,
                               ⟨8, true, fun _ => .error
                                 ⟨"cb failed".data, "RuntimeError".data,
                                  "trace".data⟩⟩)],
                             elements := [], dndPaths := []};
     js_bridge_call id wraise "pywebviewAsyncCallback".data
          (.asyncValue (some (.num 3))) "c1".data
        = .error ⟨"cb failed".data, "RuntimeError".data, "trace".data⟩) := by
  constructor
  · exact (async_callback_behaviour id
      {functions := [], js_api := .obj [],
       callbacks := [("c1".data, ⟨7, true, fun _ => .ok ()⟩)],
       elements := [], dndPaths := []}
      "c1".data (some (.num 3)) (by decide)).1
      ⟨7, true, fun _ => .ok ()⟩ rfl rfl rfl
  · exact (async_callback_behaviour id
      {functions := [], js_api := .obj [],
       callbacks := [("c1".data, ⟨8, true, fun _ => .error
         ⟨"cb failed".data, "RuntimeError".data, "trace".data⟩⟩)],
       elements := [], dndPaths := []}
      "c1".data (some (.num 3)) (by decide)).2.1
      ⟨8, true, fun _ => .error
        ⟨"cb failed".data, "RuntimeError".data, "trace".data⟩⟩
      ⟨"cb failed".data, "RuntimeError".data, "trace".data⟩ rfl rfl rfl

theorem filter_pyRemove_of_singleton [DecidableEq α] (p : α → Bool)
    (l : List α) (e : α) (h : l.filter p = [e]) :
    (pyRemove e l).filter p = [] := by
  induction l with
  | nil => simp at h
  | cons x xs ih =>
    rw [List.filter_cons] at h
    by_cases hx : p x = true
    · rw [if_pos hx] at h
      injection h with h1 h2
      subst h1
      simp only [pyRemove, if_pos rfl]
      exact h2
    · rw [if_neg hx] at h
      have hne : x ≠ e := by
        intro hxe
        subst hxe
        have he : x ∈ List.filter p xs := by
          rw [h]; exact List.mem_singleton_self x
        exact hx (List.mem_filter.mp he).2
      simp only [pyRemove, if_neg hne]
      rw [List.filter_cons, if_neg hx]
      exact ih h

/-- C6: drop-path resolution in the event relay: (a) when some
`DnDPathState` entry's decoded display name matches the dropped file's
name, the relay attaches the decoded path of the first matching entry to
the file descriptor and removes exactly that entry from the registry;
(b) with exactly one matching entry, a second drop of a same-named file
with no intervening native-hook write resolves nothing and leaves the
registry unchanged (consume-once); (c) a dropped file with no matching
entry is left without a resolved path and the registry is unchanged;
(d) the dispatcher's drop branch applies this processing to the event's
files and returns normally — no error in any case. -/
theorem drop_path_resolution (unquote : PyStr → PyStr) :
    (∀ paths (f : FileDesc) e rest,
      paths.filter (fun it => unquote it.1 == f.name) = e :: rest →
      processDropFile unquote paths f
          = (pyRemove e paths,
             {f with pywebviewFullPath := some (unquote e.2)}) ∧ e ∈ paths) ∧
    (∀ paths (f g : FileDesc) e,
      paths.filter (fun it => unquote it.1 == f.name) = [e] →
      g.name = f.name →
      processDropFile unquote (processDropFile unquote paths f).1 g
          = ((processDropFile unquote paths f).1, g)) ∧
    (∀ paths (f : FileDesc),
      paths.filter (fun it => unquote it.1 == f.name) = [] →
      processDropFile unquote paths f = (paths, f)) ∧
    (∀ (w : Window) (ev : EventParam) el (vid : PyStr),
      alookup ev.nodeId w.elements = some el → ev.eventType = "drop".data →
      ∃ out, js_bridge_call unquote w "pywebviewEventHandler".data (.event ev)
          vid = .ok out ∧
        out.window.dndPaths = (processDropFiles unquote w.dndPaths ev.files).1 ∧
        out.emitted = []) := by
  have hmatch : ∀ paths (f : FileDesc) e rest,
      paths.filter (fun it => unquote it.1 == f.name) = e :: rest →
      processDropFile unquote paths f
          = (pyRemove e paths,
             {f with pywebviewFullPath := some (unquote e.2)}) ∧ e ∈ paths := by
    intro paths f e rest h
    constructor
    · simp only [processDropFile, h]
    · have : e ∈ paths.filter (fun it => unquote it.1 == f.name) := by
        rw [h]; exact List.mem_cons_self e rest
      exact (List.mem_filter.mp this).1
  have hnomatch : ∀ paths (f : FileDesc),
      paths.filter (fun it => unquote it.1 == f.name) = [] →
      processDropFile unquote paths f = (paths, f) := by
    intro paths f h
    simp only [processDropFile, h]
  refine ⟨hmatch, ?_, hnomatch, ?_⟩
  · intro paths f g e h hg
    have h1 := (hmatch paths f e [] h).1
    have hrem : ((processDropFile unquote paths f).1).filter
        (fun it => unquote it.1 == g.name) = [] := by
      rw [h1, hg]
      exact filter_pyRemove_of_singleton _ paths e h
    exact hnomatch _ g hrem
  · intro w ev el vid hel hdrop
    refine ⟨{emitted := [], logs := [], moved := [],
             handlersRun := ((alookup ev.eventType el.event_handlers).getD []).map
               (fun h => (h, {ev with
                 files := (processDropFiles unquote w.dndPaths ev.files).2})),
             callbacksRun := [],
             window := {w with
               dndPaths := (processDropFiles unquote w.dndPaths ev.files).1}},
            ?_, rfl, rfl⟩
    simp only [js_bridge_call,
      if_neg (by decide : ¬("pywebviewEventHandler".data
        = "pywebviewMoveWindow".data)),
      if_pos rfl, hel, if_pos hdrop, hdrop]
    simp

/-- Witness for C6: the registry `[("a.txt", "/tmp/a.txt")]` resolves a drop
of `a.txt` to `/tmp/a.txt` and is drained; an identical second drop resolves
nothing. -/
theorem drop_path_resolution_witness :
    (processDropFile id [("a.txt".data, "/tmp/a.txt".data)] ⟨"a.txt".data, none⟩
        = ([], ⟨"a.txt".data, some "/tmp/a.txt".data⟩) ∧
      ("a.txt".data, "/tmp/a.txt".data) ∈ [("a.txt".data, "/tmp/a.txt".data)]) ∧
    processDropFile id
        (processDropFile id [("a.txt".data, "/tmp/a.txt".data)]
          ⟨"a.txt".data, none⟩).1 ⟨"a.txt".data, none⟩
      = ((processDropFile id [("a.txt".data, "/tmp/a.txt".data)]
          ⟨"a.txt".data, none⟩).1, ⟨"a.txt".data, none⟩) := by
  constructor
  · have h := (drop_path_resolution id).1 [("a.txt".data, "/tmp/a.txt".data)]
      ⟨"a.txt".data, none⟩ ("a.txt".data, "/tmp/a.txt".data) [] (by decide)
    exact ⟨by rw [h.1]; rfl, h.2⟩
  · exact (drop_path_resolution id).2.1 [("a.txt".data, "/tmp/a.txt".data)]
      ⟨"a.txt".data, none⟩ ⟨"a.txt".data, none⟩
      ("a.txt".data, "/tmp/a.txt".data) (by decide) rfl

theorem get_functions_zero (heap : Heap n) (oid : Fin n) (base : PyStr)
    (visited : List (Fin n)) (fns : List (PyStr × List PyStr)) :
    get_functions heap 0 oid base visited fns = none := by
  rw [get_functions.eq_def]

theorem get_functions_succ_mem (heap : Heap n) (fuel : Nat) (oid : Fin n)
    (base : PyStr) (visited : List (Fin n)) (fns : List (PyStr × List PyStr))
    (h : oid ∈ visited) :
    get_functions heap (fuel + 1) oid base visited fns = some (visited, fns) := by
  rw [get_functions.eq_def]
  simp [h]

theorem get_functions_succ_not_mem (heap : Heap n) (fuel : Nat) (oid : Fin n)
    (base : PyStr) (visited : List (Fin n)) (fns : List (PyStr × List PyStr))
    (h : oid ∉ visited) :
    get_functions heap (fuel + 1) oid base visited fns
      = walkAttrs heap fuel (heap oid).attrs base (visited ++ [oid]) fns := by
  rw [get_functions.eq_def]
  simp [h]

theorem walkAttrs_nil (heap : Heap n) (fuel : Nat) (base : PyStr)
    (visited : List (Fin n)) (fns : List (PyStr × List PyStr)) :
    walkAttrs heap fuel [] base visited fns = some (visited, fns) := by
  rw [walkAttrs.eq_def]

theorem walkAttrs_underscore (heap : Heap n) (fuel : Nat) (name : PyStr)
    (attr : HAttr n) (rest : List (PyStr × HAttr n)) (base : PyStr)
    (visited : List (Fin n)) (fns : List (PyStr × List PyStr))
    (h : underscored name) :
    walkAttrs heap fuel ((name, attr) :: rest) base visited fns
      = walkAttrs heap fuel rest base visited fns := by
  rw [walkAttrs.eq_def]
  simp [h]

theorem walkAttrs_method (heap : Heap n) (fuel : Nat) (name : PyStr)
    (params : List PyStr) (rest : List (PyStr × HAttr n)) (base : PyStr)
    (visited : List (Fin n)) (fns : List (PyStr × List PyStr))
    (h : ¬ underscored name) :
    walkAttrs heap fuel ((name, HAttr.method params) :: rest) base visited fns
      = walkAttrs heap fuel rest base visited
          (dinsert (fullNameOf base name) (params.drop 1) fns) := by
  rw [walkAttrs.eq_def]
  simp [h]

theorem walkAttrs_objRef (heap : Heap n) (fuel : Nat) (name : PyStr)
    (tid : Fin n) (rest : List (PyStr × HAttr n)) (base : PyStr)
    (visited : List (Fin n)) (fns : List (PyStr × List PyStr))
    (h : ¬ underscored name) :
    walkAttrs heap fuel ((name, HAttr.objRef tid) :: rest) base visited fns
      = match get_functions heap fuel tid (fullNameOf base name) visited fns with
        | none => none
        | some vf => walkAttrs heap fuel rest base vf.1 vf.2 := by
  rw [walkAttrs.eq_def]
  simp [h]

theorem walkAttrs_other (heap : Heap n) (fuel : Nat) (name : PyStr)
    (rest : List (PyStr × HAttr n)) (base : PyStr)
    (visited : List (Fin n)) (fns : List (PyStr × List PyStr))
    (h : ¬ underscored name) :
    walkAttrs heap fuel ((name, HAttr.other) :: rest) base visited fns
      = walkAttrs heap fuel rest base visited fns := by
  rw [walkAttrs.eq_def]
  simp [h]

/-- Shape of the visited list after a walk: it grows by a block of fresh,
pairwise-distinct objects — each object enters the visited list at most
once (the `obj in exposed_objects` identity guard). -/
theorem gf_shape (heap : Heap n) (fuel : Nat) :
    (∀ (oid : Fin n) (base : PyStr) (visited : List (Fin n)) fns out,
      get_functions heap fuel oid base visited fns = some out →
      ∃ new, out.1 = visited ++ new ∧ new.Nodup ∧ ∀ j ∈ new, j ∉ visited) ∧
    (∀ (attrs : List (PyStr × HAttr n)) (base : PyStr) visited fns out,
      walkAttrs heap fuel attrs base visited fns = some out →
      ∃ new, out.1 = visited ++ new ∧ new.Nodup ∧ ∀ j ∈ new, j ∉ visited) := by
  induction fuel with
  | zero =>
    refine ⟨?_, ?_⟩
    · intro oid base visited fns out h
      rw [get_functions_zero] at h
      exact Option.noConfusion h
    · intro attrs
      induction attrs with
      | nil =>
        intro base visited fns out h
        rw [walkAttrs_nil] at h
        injection h with h'
        subst h'
        exact ⟨[], by simp, List.nodup_nil, by simp⟩
      | cons a rest ih =>
        intro base visited fns out h
        obtain ⟨name, attr⟩ := a
        by_cases hu : underscored name
        · rw [walkAttrs_underscore _ _ _ _ _ _ _ _ hu] at h
          exact ih _ _ _ _ h
        · cases attr with
          | method ps =>
            rw [walkAttrs_method _ _ _ _ _ _ _ _ hu] at h
            exact ih _ _ _ _ h
          | objRef tid =>
            rw [walkAttrs_objRef _ _ _ _ _ _ _ _ hu, get_functions_zero] at h
            exact Option.noConfusion h
          | other =>
            rw [walkAttrs_other _ _ _ _ _ _ _ hu] at h
            exact ih _ _ _ _ h
  | succ fuel ih =>
    have hP : ∀ (oid : Fin n) (base : PyStr) visited fns out,
        get_functions heap (fuel + 1) oid base visited fns = some out →
        ∃ new, out.1 = visited ++ new ∧ new.Nodup ∧ ∀ j ∈ new, j ∉ visited := by
      intro oid base visited fns out h
      by_cases hv : oid ∈ visited
      · rw [get_functions_succ_mem _ _ _ _ _ _ hv] at h
        injection h with h'
        subst h'
        exact ⟨[], by simp, List.nodup_nil, by simp⟩
      · rw [get_functions_succ_not_mem _ _ _ _ _ _ hv] at h
        obtain ⟨new, h1, h2, h3⟩ := ih.2 _ _ _ _ _ h
        refine ⟨oid :: new, by rw [h1]; simp, ?_, ?_⟩
        · exact List.nodup_cons.mpr
            ⟨fun hm => (h3 oid hm) (List.mem_append_right _ (List.mem_singleton_self _)), h2⟩
        · intro j hj
          rcases List.mem_cons.mp hj with rfl | hj'
          · exact hv
          · exact fun hjv => (h3 j hj') (List.mem_append_left _ hjv)
    refine ⟨hP, ?_⟩
    intro attrs
    induction attrs with
    | nil =>
      intro base visited fns out h
      rw [walkAttrs_nil] at h
      injection h with h'
      subst h'
      exact ⟨[], by simp, List.nodup_nil, by simp⟩
    | cons a rest ihr =>
      intro base visited fns out h
      obtain ⟨name, attr⟩ := a
      by_cases hu : underscored name
      · rw [walkAttrs_underscore _ _ _ _ _ _ _ _ hu] at h
        exact ihr _ _ _ _ h
      · cases attr with
        | method ps =>
          rw [walkAttrs_method _ _ _ _ _ _ _ _ hu] at h
          exact ihr _ _ _ _ h
        | objRef tid =>
          rw [walkAttrs_objRef _ _ _ _ _ _ _ _ hu] at h
          cases hg : get_functions heap (fuel + 1) tid (fullNameOf base name)
              visited fns with
          | none =>
            rw [hg] at h
            exact Option.noConfusion h
          | some vf =>
            rw [hg] at h
            obtain ⟨new1, g1, g2, g3⟩ := hP _ _ _ _ _ hg
            obtain ⟨new2, w1, w2, w3⟩ := ihr _ _ _ _ h
            refine ⟨new1 ++ new2, by rw [w1, g1, List.append_assoc], ?_, ?_⟩
            · refine List.Nodup.append g2 w2 ?_
              intro j hj1 hj2
              exact (w3 j hj2) (by rw [g1]; exact List.mem_append_right _ hj1)
            · intro j hj
              rcases List.mem_append.mp hj with hj1 | hj2
              · exact g3 j hj1
              · exact fun hjv => (w3 j hj2)
                  (by rw [g1]; exact List.mem_append_left _ hjv)
        | other =>
          rw [walkAttrs_other _ _ _ _ _ _ _ hu] at h
          exact ihr _ _ _ _ h

theorem unvisitedCount_append_single (visited : List (Fin n)) (oid : Fin n)
    (h : oid ∉ visited) :
    unvisitedCount (visited ++ [oid]) + 1 = unvisitedCount visited := by
  unfold unvisitedCount
  have hset : Finset.univ.filter (fun i : Fin n => i ∉ visited ++ [oid])
      = (Finset.univ.filter (fun i : Fin n => i ∉ visited)).erase oid := by
    ext i
    simp only [Finset.mem_filter, Finset.mem_univ, true_and, Finset.mem_erase,
      List.mem_append, List.mem_singleton, not_or]
    tauto
  have hmem : oid ∈ Finset.univ.filter (fun i : Fin n => i ∉ visited) := by
    simp [h]
  have hpos := Finset.card_pos.mpr ⟨oid, hmem⟩
  rw [hset, Finset.card_erase_of_mem hmem]
  omega

theorem unvisitedCount_append_le (visited new : List (Fin n)) :
    unvisitedCount (visited ++ new) ≤ unvisitedCount visited := by
  apply Finset.card_le_card
  intro i hi
  simp only [Finset.mem_filter, Finset.mem_univ, true_and, List.mem_append,
    not_or] at hi ⊢
  exact hi.1

/-- Fuel larger than the number of unvisited objects always suffices: the
walk cannot recurse deeper than the number of objects it has not yet
recorded. -/
theorem gf_fuel_sufficient (heap : Heap n) (fuel : Nat) :
    (∀ (oid : Fin n) (base : PyStr) (visited : List (Fin n)) fns,
      unvisitedCount visited < fuel →
      (get_functions heap fuel oid base visited fns).isSome) ∧
    (∀ (attrs : List (PyStr × HAttr n)) (base : PyStr) visited fns,
      unvisitedCount visited < fuel →
      (walkAttrs heap fuel attrs base visited fns).isSome) := by
  induction fuel with
  | zero =>
    exact ⟨fun _ _ _ _ h => absurd h (Nat.not_lt_zero _),
           fun _ _ _ _ h => absurd h (Nat.not_lt_zero _)⟩
  | succ fuel ih =>
    have hP : ∀ (oid : Fin n) (base : PyStr) visited fns,
        unvisitedCount visited < fuel + 1 →
        (get_functions heap (fuel + 1) oid base visited fns).isSome := by
      intro oid base visited fns hU
      by_cases hv : oid ∈ visited
      · rw [get_functions_succ_mem _ _ _ _ _ _ hv]
        rfl
      · rw [get_functions_succ_not_mem _ _ _ _ _ _ hv]
        apply ih.2
        have := unvisitedCount_append_single visited oid hv
        omega
    refine ⟨hP, ?_⟩
    intro attrs
    induction attrs with
    | nil =>
      intro base visited fns hU
      rw [walkAttrs_nil]
      rfl
    | cons a rest ihr =>
      intro base visited fns hU
      obtain ⟨name, attr⟩ := a
      by_cases hu : underscored name
      · rw [walkAttrs_underscore _ _ _ _ _ _ _ _ hu]
        exact ihr _ _ _ hU
      · cases attr with
        | method ps =>
          rw [walkAttrs_method _ _ _ _ _ _ _ _ hu]
          exact ihr _ _ _ hU
        | objRef tid =>
          rw [walkAttrs_objRef _ _ _ _ _ _ _ _ hu]
          cases hg : get_functions heap (fuel + 1) tid (fullNameOf base name)
              visited fns with
          | none =>
            have := hP tid (fullNameOf base name) visited fns hU
            rw [hg] at this
            exact absurd this (by simp)
          | some vf =>
            obtain ⟨new, h1, _, _⟩ := (gf_shape heap (fuel + 1)).1 _ _ _ _ _ hg
            apply ihr
            calc unvisitedCount vf.1 = unvisitedCount (visited ++ new) := by rw [h1]
              _ ≤ unvisitedCount visited := unvisitedCount_append_le _ _
              _ < fuel + 1 := hU
        | other =>
          rw [walkAttrs_other _ _ _ _ _ _ _ hu]
          exact ihr _ _ _ hU

/-- C4: for every exposed object graph — including graphs with shared
references and back-reference cycles — the stub-generation walk terminates
(fuel `n + 1` is enough for a heap of `n` objects, i.e. the recursion
bottoms out before exhausting it) and visits each object at most once: the
final visited list is duplicate-free, the already-visited check being
membership of the object itself (identity, modelled as the heap address) in
`exposed_objects`. -/
theorem get_functions_terminates (n : Nat) (heap : Heap n) (root : Fin n) :
    ∃ out, getFunctionsRun heap root = some out ∧ out.1.Nodup ∧ root ∈ out.1 := by
  have hn : unvisitedCount ([] : List (Fin n)) = n := by
    unfold unvisitedCount
    simp
  have hs : (get_functions heap (n + 1) root [] [] []).isSome :=
    (gf_fuel_sufficient heap (n + 1)).1 root [] [] [] (by omega)
  obtain ⟨out, hout⟩ := Option.isSome_iff_exists.mp hs
  obtain ⟨new, h1, h2, _⟩ := (gf_shape heap (n + 1)).1 _ _ _ _ _ hout
  refine ⟨out, hout, by rw [h1]; simpa using h2, ?_⟩
  have hroot : root ∉ ([] : List (Fin n)) := List.not_mem_nil root
  rw [get_functions_succ_not_mem _ _ _ _ _ _ hroot] at hout
  obtain ⟨new', h1', _, _⟩ := (gf_shape heap n).2 _ _ _ _ _ hout
  rw [h1']
  exact List.mem_append_left _ (by simp)

/-- Reachability and closure of the visited set: every newly visited object
is reachable from the entry object along public reference attributes, the
entry object itself ends up visited, and the attribute edges of every newly
visited object all lead into the final visited set. -/
theorem gf_reach (heap : Heap n) (fuel : Nat) :
    (∀ (oid : Fin n) (base : PyStr) (visited : List (Fin n)) fns out,
      get_functions heap fuel oid base visited fns = some out →
      oid ∈ out.1 ∧
      (∀ j ∈ out.1, j ∈ visited ∨ Relation.ReflTransGen (edgeTo heap) oid j) ∧
      (∀ j ∈ out.1, j ∉ visited → ∀ t, edgeTo heap j t → t ∈ out.1)) ∧
    (∀ (attrs : List (PyStr × HAttr n)) (base : PyStr) visited fns out,
      walkAttrs heap fuel attrs base visited fns = some out →
      (∀ j ∈ out.1, j ∈ visited ∨ ∃ a ∈ attrs, ¬underscored a.1 ∧
        ∃ t, a.2 = HAttr.objRef t ∧ Relation.ReflTransGen (edgeTo heap) t j) ∧
      (∀ j ∈ out.1, j ∉ visited → ∀ t, edgeTo heap j t → t ∈ out.1) ∧
      (∀ a ∈ attrs, ¬underscored a.1 → ∀ t, a.2 = HAttr.objRef t →
        t ∈ out.1)) := by
  induction fuel with
  | zero =>
    refine ⟨?_, ?_⟩
    · intro oid base visited fns out h
      rw [get_functions_zero] at h
      exact Option.noConfusion h
    · intro attrs
      induction attrs with
      | nil =>
        intro base visited fns out h
        rw [walkAttrs_nil] at h
        injection h with h'
        subst h'
        refine ⟨fun j hj => Or.inl hj, fun j hj hjv => absurd hj hjv, ?_⟩
        intro a ha
        exact absurd ha (List.not_mem_nil a)
      | cons a rest ih =>
        intro base visited fns out h
        obtain ⟨name, attr⟩ := a
        by_cases hu : underscored name
        · rw [walkAttrs_underscore _ _ _ _ _ _ _ _ hu] at h
          obtain ⟨q1, q2, q3⟩ := ih _ _ _ _ h
          refine ⟨?_, q2, ?_⟩
          · intro j hj
            rcases q1 j hj with hv | ⟨a, ha, hrest⟩
            · exact Or.inl hv
            · exact Or.inr ⟨a, List.mem_cons_of_mem _ ha, hrest⟩
          · intro a ha hna t hat
            rcases List.mem_cons.mp ha with rfl | ha'
            · exact absurd hu (by simpa using hna)
            · exact q3 a ha' hna t hat
        · cases attr with
          | method ps =>
            rw [walkAttrs_method _ _ _ _ _ _ _ _ hu] at h
            obtain ⟨q1, q2, q3⟩ := ih _ _ _ _ h
            refine ⟨?_, q2, ?_⟩
            · intro j hj
              rcases q1 j hj with hv | ⟨a, ha, hrest⟩
              · exact Or.inl hv
              · exact Or.inr ⟨a, List.mem_cons_of_mem _ ha, hrest⟩
            · intro a ha hna t hat
              rcases List.mem_cons.mp ha with rfl | ha'
              · exact absurd hat (by simp)
              · exact q3 a ha' hna t hat
          | objRef tid =>
            rw [walkAttrs_objRef _ _ _ _ _ _ _ _ hu, get_functions_zero] at h
            exact Option.noConfusion h
          | other =>
            rw [walkAttrs_other _ _ _ _ _ _ _ hu] at h
            obtain ⟨q1, q2, q3⟩ := ih _ _ _ _ h
            refine ⟨?_, q2, ?_⟩
            · intro j hj
              rcases q1 j hj with hv | ⟨a, ha, hrest⟩
              · exact Or.inl hv
              · exact Or.inr ⟨a, List.mem_cons_of_mem _ ha, hrest⟩
            · intro a ha hna t hat
              rcases List.mem_cons.mp ha with rfl | ha'
              · exact absurd hat (by simp)
              · exact q3 a ha' hna t hat
  | succ fuel ih =>
    have hP : ∀ (oid : Fin n) (base : PyStr) visited fns out,
        get_functions heap (fuel + 1) oid base visited fns = some out →
        oid ∈ out.1 ∧
        (∀ j ∈ out.1, j ∈ visited ∨
          Relation.ReflTransGen (edgeTo heap) oid j) ∧
        (∀ j ∈ out.1, j ∉ visited → ∀ t, edgeTo heap j t → t ∈ out.1) := by
      intro oid base visited fns out h
      by_cases hv : oid ∈ visited
      · rw [get_functions_succ_mem _ _ _ _ _ _ hv] at h
        injection h with h'
        subst h'
        exact ⟨hv, fun j hj => Or.inl hj, fun j hj hjv => absurd hj hjv⟩
      · rw [get_functions_succ_not_mem _ _ _ _ _ _ hv] at h
        obtain ⟨q1, q2, q3⟩ := ih.2 _ _ _ _ _ h
        have hoid : oid ∈ out.1 := by
          obtain ⟨new, h1, _, _⟩ := (gf_shape heap fuel).2 _ _ _ _ _ h
          rw [h1]
          exact List.mem_append_left _ (List.mem_append_right _ (by simp))
        refine ⟨hoid, ?_, ?_⟩
        · intro j hj
          rcases q1 j hj with hjv | ⟨a, ha, hna, t, hat, hreach⟩
          · rcases List.mem_append.mp hjv with hjv' | hjo
            · exact Or.inl hjv'
            · rw [List.mem_singleton.mp hjo]
              exact Or.inr Relation.ReflTransGen.refl
          · exact Or.inr (Relation.ReflTransGen.head ⟨a, ha, hat, hna⟩ hreach)
        · intro j hj hjv t het
          by_cases hje : j = oid
          · subst hje
            obtain ⟨a, ha, hat, hna⟩ := het
            exact q3 a ha hna t hat
          · refine q2 j hj ?_ t het
            intro hjm
            rcases List.mem_append.mp hjm with h' | h'
            · exact hjv h'
            · exact hje (List.mem_singleton.mp h')
    refine ⟨hP, ?_⟩
    intro attrs
    induction attrs with
    | nil =>
      intro base visited fns out h
      rw [walkAttrs_nil] at h
      injection h with h'
      subst h'
      refine ⟨fun j hj => Or.inl hj, fun j hj hjv => absurd hj hjv, ?_⟩
      intro a ha
      exact absurd ha (List.not_mem_nil a)
    | cons a rest ihr =>
      intro base visited fns out h
      obtain ⟨name, attr⟩ := a
      by_cases hu : underscored name
      · rw [walkAttrs_underscore _ _ _ _ _ _ _ _ hu] at h
        obtain ⟨q1, q2, q3⟩ := ihr _ _ _ _ h
        refine ⟨?_, q2, ?_⟩
        · intro j hj
          rcases q1 j hj with hv | ⟨a, ha, hrest⟩
          · exact Or.inl hv
          · exact Or.inr ⟨a, List.mem_cons_of_mem _ ha, hrest⟩
        · intro a ha hna t hat
          rcases List.mem_cons.mp ha with rfl | ha'
          · exact absurd hu (by simpa using hna)
          · exact q3 a ha' hna t hat
      · cases attr with
        | method ps =>
          rw [walkAttrs_method _ _ _ _ _ _ _ _ hu] at h
          obtain ⟨q1, q2, q3⟩ := ihr _ _ _ _ h
          refine ⟨?_, q2, ?_⟩
          · intro j hj
            rcases q1 j hj with hv | ⟨a, ha, hrest⟩
            · exact Or.inl hv
            · exact Or.inr ⟨a, List.mem_cons_of_mem _ ha, hrest⟩
          · intro a ha hna t hat
            rcases List.mem_cons.mp ha with rfl | ha'
            · exact absurd hat (by simp)
            · exact q3 a ha' hna t hat
        | objRef tid =>
          rw [walkAttrs_objRef _ _ _ _ _ _ _ _ hu] at h
          cases hg : get_functions heap (fuel + 1) tid (fullNameOf base name)
              visited fns with
          | none =>
            rw [hg] at h
            exact Option.noConfusion h
          | some vf =>
            rw [hg] at h
            obtain ⟨ctid, c1, c2⟩ := hP _ _ _ _ _ hg
            obtain ⟨r1, r2, r3⟩ := ihr _ _ _ _ h
            obtain ⟨new2, w1, _, _⟩ := (gf_shape heap (fuel + 1)).2 _ _ _ _ _ h
            have hsub : ∀ x, x ∈ vf.1 → x ∈ out.1 := by
              intro x hx
              rw [w1]
              exact List.mem_append_left _ hx
            refine ⟨?_, ?_, ?_⟩
            · intro j hj
              rcases r1 j hj with hjvf | ⟨a, ha, hrest⟩
              · rcases c1 j hjvf with hjv | hreach
                · exact Or.inl hjv
                · exact Or.inr ⟨(name, HAttr.objRef tid),
                    List.mem_cons_self _ _, by simpa using hu, tid, rfl, hreach⟩
              · exact Or.inr ⟨a, List.mem_cons_of_mem _ ha, hrest⟩
            · intro j hj hjv t het
              by_cases hjf : j ∈ vf.1
              · exact hsub t (c2 j hjf hjv t het)
              · exact r2 j hj hjf t het
            · intro a ha hna t hat
              rcases List.mem_cons.mp ha with rfl | ha'
              · have htid : t = tid := by
                  injection hat with hh
                  exact hh.symm
                rw [htid]
                exact hsub tid ctid
              · exact r3 a ha' hna t hat
        | other =>
          rw [walkAttrs_other _ _ _ _ _ _ _ hu] at h
          obtain ⟨q1, q2, q3⟩ := ihr _ _ _ _ h
          refine ⟨?_, q2, ?_⟩
          · intro j hj
            rcases q1 j hj with hv | ⟨a, ha, hrest⟩
            · exact Or.inl hv
            · exact Or.inr ⟨a, List.mem_cons_of_mem _ ha, hrest⟩
          · intro a ha hna t hat
            rcases List.mem_cons.mp ha with rfl | ha'
            · exact absurd hat (by simp)
            · exact q3 a ha' hna t hat

theorem mem_dinsert [DecidableEq κ] (k : κ) (v : β) (l : List (κ × β))
    (kv : κ × β) (h : kv ∈ dinsert k v l) : kv = (k, v) ∨ kv ∈ l := by
  induction l with
  | nil => simpa [dinsert] using h
  | cons x xs ih =>
    by_cases hk : x.1 = k
    · obtain ⟨x1, x2⟩ := x
      simp only at hk
      simp only [dinsert, if_pos hk] at h
      rcases List.mem_cons.mp h with rfl | hm
      · subst hk
        exact Or.inl rfl
      · exact Or.inr (List.mem_cons_of_mem _ hm)
    · obtain ⟨x1, x2⟩ := x
      simp only at hk
      simp only [dinsert, if_neg hk] at h
      rcases List.mem_cons.mp h with rfl | hm
      · exact Or.inr (List.mem_cons_self _ _)
      · rcases ih hm with h' | h'
        · exact Or.inl h'
        · exact Or.inr (List.mem_cons_of_mem _ h')

/-- Every entry the walk adds to the `functions` dict carries
`get_args(attr)[1:]`: the method's declared positional parameter names with
the implicit receiver dropped. -/
theorem gf_values (heap : Heap n) (fuel : Nat) :
    (∀ (oid : Fin n) (base : PyStr) (visited : List (Fin n)) fns out,
      get_functions heap fuel oid base visited fns = some out →
      ∀ kv ∈ out.2, kv ∈ fns ∨ ∃ (j : Fin n) (name : PyStr) (ps : List PyStr),
        (name, HAttr.method ps) ∈ (heap j).attrs ∧ kv.2 = ps.drop 1) ∧
    (∀ (attrs : List (PyStr × HAttr n)) (base : PyStr) visited fns out,
      walkAttrs heap fuel attrs base visited fns = some out →
      (∀ a ∈ attrs, ∃ j : Fin n, a ∈ (heap j).attrs) →
      ∀ kv ∈ out.2, kv ∈ fns ∨ ∃ (j : Fin n) (name : PyStr) (ps : List PyStr),
        (name, HAttr.method ps) ∈ (heap j).attrs ∧ kv.2 = ps.drop 1) := by
  induction fuel with
  | zero =>
    refine ⟨?_, ?_⟩
    · intro oid base visited fns out h
      rw [get_functions_zero] at h
      exact Option.noConfusion h
    · intro attrs
      induction attrs with
      | nil =>
        intro base visited fns out h hin kv hkv
        rw [walkAttrs_nil] at h
        injection h with h'
        subst h'
        exact Or.inl hkv
      | cons a rest ih =>
        intro base visited fns out h hin kv hkv
        obtain ⟨name, attr⟩ := a
        by_cases hu : underscored name
        · rw [walkAttrs_underscore _ _ _ _ _ _ _ _ hu] at h
          exact ih _ _ _ _ h (fun a ha => hin a (List.mem_cons_of_mem _ ha)) kv hkv
        · cases attr with
          | method ps =>
            rw [walkAttrs_method _ _ _ _ _ _ _ _ hu] at h
            rcases ih _ _ _ _ h (fun a ha => hin a (List.mem_cons_of_mem _ ha))
                kv hkv with hm | hnew
            · rcases mem_dinsert _ _ _ _ hm with rfl | hm'
              · obtain ⟨j, hj⟩ := hin (name, HAttr.method ps) (List.mem_cons_self _ _)
                exact Or.inr ⟨j, name, ps, hj, rfl⟩
              · exact Or.inl hm'
            · exact Or.inr hnew
          | objRef tid =>
            rw [walkAttrs_objRef _ _ _ _ _ _ _ _ hu, get_functions_zero] at h
            exact Option.noConfusion h
          | other =>
            rw [walkAttrs_other _ _ _ _ _ _ _ hu] at h
            exact ih _ _ _ _ h (fun a ha => hin a (List.mem_cons_of_mem _ ha)) kv hkv
  | succ fuel ih =>
    have hP : ∀ (oid : Fin n) (base : PyStr) visited fns out,
        get_functions heap (fuel + 1) oid base visited fns = some out →
        ∀ kv ∈ out.2, kv ∈ fns ∨ ∃ (j : Fin n) (name : PyStr) (ps : List PyStr),
          (name, HAttr.method ps) ∈ (heap j).attrs ∧ kv.2 = ps.drop 1 := by
      intro oid base visited fns out h kv hkv
      by_cases hv : oid ∈ visited
      · rw [get_functions_succ_mem _ _ _ _ _ _ hv] at h
        injection h with h'
        subst h'
        exact Or.inl hkv
      · rw [get_functions_succ_not_mem _ _ _ _ _ _ hv] at h
        exact ih.2 _ _ _ _ _ h (fun a ha => ⟨oid, ha⟩) kv hkv
    refine ⟨hP, ?_⟩
    intro attrs
    induction attrs with
    | nil =>
      intro base visited fns out h hin kv hkv
      rw [walkAttrs_nil] at h
      injection h with h'
      subst h'
      exact Or.inl hkv
    | cons a rest ihr =>
      intro base visited fns out h hin kv hkv
      obtain ⟨name, attr⟩ := a
      by_cases hu : underscored name
      · rw [walkAttrs_underscore _ _ _ _ _ _ _ _ hu] at h
        exact ihr _ _ _ _ h (fun a ha => hin a (List.mem_cons_of_mem _ ha)) kv hkv
      · cases attr with
        | method ps =>
          rw [walkAttrs_method _ _ _ _ _ _ _ _ hu] at h
          rcases ihr _ _ _ _ h (fun a ha => hin a (List.mem_cons_of_mem _ ha))
              kv hkv with hm | hnew
          · rcases mem_dinsert _ _ _ _ hm with rfl | hm'
            · obtain ⟨j, hj⟩ := hin (name, HAttr.method ps) (List.mem_cons_self _ _)
              exact Or.inr ⟨j, name, ps, hj, rfl⟩
            · exact Or.inl hm'
          · exact Or.inr hnew
        | objRef tid =>
          rw [walkAttrs_objRef _ _ _ _ _ _ _ _ hu] at h
          cases hg : get_functions heap (fuel + 1) tid (fullNameOf base name)
              visited fns with
          | none =>
            rw [hg] at h
            exact Option.noConfusion h
          | some vf =>
            rw [hg] at h
            rcases ihr _ _ _ _ h (fun a ha => hin a (List.mem_cons_of_mem _ ha))
                kv hkv with hm | hnew
            · exact hP _ _ _ _ _ hg kv hm
            · exact Or.inr hnew
        | other =>
          rw [walkAttrs_other _ _ _ _ _ _ _ hu] at h
          exact ihr _ _ _ _ h (fun a ha => hin a (List.mem_cons_of_mem _ ha)) kv hkv

theorem splitOnDot_ne_nil (s : PyStr) : splitOnDot s ≠ [] := by
  cases s with
  | nil => simp [splitOnDot]
  | cons c rest =>
    rw [splitOnDot]
    cases splitOnDot rest with
    | nil => simp
    | cons p ps =>
      by_cases hc : c = '.'
      · simp [hc]
      · simp [hc]

theorem splitOnDot_append (xs ys : PyStr) :
    splitOnDot (xs ++ '.' :: ys) = splitOnDot xs ++ splitOnDot ys := by
  induction xs with
  | nil =>
    rw [List.nil_append, splitOnDot]
    cases hy : splitOnDot ys with
    | nil => exact absurd hy (splitOnDot_ne_nil ys)
    | cons p ps => simp [splitOnDot, hy]
  | cons c xs ih =>
    rw [List.cons_append, splitOnDot, ih]
    cases hx : splitOnDot xs with
    | nil => exact absurd hx (splitOnDot_ne_nil xs)
    | cons q qs =>
      by_cases hc : c = '.'
      · simp [splitOnDot, hc, hx]
      · simp [splitOnDot, hc, hx]

theorem splitOnDot_no_dot (s : PyStr) (h : ('.' : Char) ∉ s) :
    splitOnDot s = [s] := by
  induction s with
  | nil => rfl
  | cons c rest ih =>
    have hc : c ≠ '.' := fun he => h (he ▸ List.mem_cons_self c rest)
    have hrest : ('.' : Char) ∉ rest := fun hm => h (List.mem_cons_of_mem _ hm)
    rw [splitOnDot, ih hrest]
    simp [hc]

theorem joinDots_cons_head (c : Char) (p : PyStr) (ps : List PyStr) :
    joinDots ((c :: p) :: ps) = c :: joinDots (p :: ps) := by
  cases ps with
  | nil => rfl
  | cons q qs => rfl

theorem joinDots_splitOnDot (s : PyStr) : joinDots (splitOnDot s) = s := by
  induction s with
  | nil => rfl
  | cons c rest ih =>
    rw [splitOnDot]
    cases hr : splitOnDot rest with
    | nil => exact absurd hr (splitOnDot_ne_nil rest)
    | cons p ps =>
      rw [hr] at ih
      by_cases hc : c = '.'
      · subst hc
        simp only [if_pos rfl]
        cases ps with
        | nil => simpa [joinDots] using ih
        | cons q qs => simpa [joinDots] using ih
      · simp only [if_neg hc]
        rw [joinDots_cons_head, ih]

theorem splitOnDot_injective (s t : PyStr) (h : splitOnDot s = splitOnDot t) :
    s = t := by
  have := congrArg joinDots h
  rwa [joinDots_splitOnDot, joinDots_splitOnDot] at this

theorem fullNameOf_path (base name : PyStr) (hdot : ('.' : Char) ∉ name)
    (hne : name ≠ []) :
    splitOnDot (fullNameOf base name) = basePathOf base ++ [name] := by
  by_cases hb : base = []
  · subst hb
    rw [fullNameOf, if_pos rfl, basePathOf, if_pos rfl, splitOnDot_no_dot _ hdot]
    rfl
  · rw [fullNameOf, if_neg hb, basePathOf, if_neg hb, splitOnDot_append,
      splitOnDot_no_dot _ hdot]

theorem fullNameOf_ne_nil (base name : PyStr) (hne : name ≠ []) :
    fullNameOf base name ≠ [] := by
  by_cases hb : base = []
  · subst hb
    rwa [fullNameOf, if_pos rfl]
  · rw [fullNameOf, if_neg hb]
    simp [hb]

theorem basePathOf_fullNameOf (base name : PyStr) (hdot : ('.' : Char) ∉ name)
    (hne : name ≠ []) :
    basePathOf (fullNameOf base name) = basePathOf base ++ [name] := by
  rw [basePathOf, if_neg (fullNameOf_ne_nil base name hne),
    fullNameOf_path base name hdot hne]

theorem leads_self (l : List PyStr) : leads l l := ⟨[], by simp⟩

theorem leads_of_leads_append (pre mid l : List PyStr)
    (h : leads (pre ++ mid) l) : leads pre l := by
  obtain ⟨t, ht⟩ := h
  exact ⟨mid ++ t, by rw [ht, List.append_assoc]⟩

theorem ne_of_leads_strict (pre l : List PyStr) (t : List PyStr)
    (hne : t ≠ []) (h : l = pre ++ t) : l ≠ pre := by
  intro he
  rw [he] at h
  have : pre ++ ([] : List PyStr) = pre ++ t := by simpa using h
  exact hne ((List.append_cancel_left this).symm)

theorem dinsert_append_of_fresh [DecidableEq κ] (k : κ) (v : β)
    (l : List (κ × β)) (h : ∀ kv ∈ l, kv.1 ≠ k) :
    dinsert k v l = l ++ [(k, v)] := by
  induction l with
  | nil => rfl
  | cons x xs ih =>
    obtain ⟨x1, x2⟩ := x
    have hx : x1 ≠ k := h (x1, x2) (List.mem_cons_self _ _)
    rw [dinsert, if_neg hx, ih (fun kv hkv => h kv (List.mem_cons_of_mem _ hkv))]
    rfl

theorem pubMethods_cons_und {name : PyStr} (attr : HAttr n)
    (rest : List (PyStr × HAttr n)) (h : underscored name) :
    pubMethods ((name, attr) :: rest) = pubMethods rest := by
  simp [pubMethods, List.filter_cons, h]

theorem pubMethods_cons_method {name : PyStr} (ps : List PyStr)
    (rest : List (PyStr × HAttr n)) (h : ¬ underscored name) :
    pubMethods ((name, HAttr.method ps) :: rest) = pubMethods rest + 1 := by
  simp [pubMethods, List.filter_cons, h]

theorem pubMethods_cons_objRef {name : PyStr} (tid : Fin n)
    (rest : List (PyStr × HAttr n)) (h : ¬ underscored name) :
    pubMethods ((name, HAttr.objRef tid) :: rest) = pubMethods rest := by
  simp [pubMethods, List.filter_cons, h]

theorem pubMethods_cons_other {name : PyStr}
    (rest : List (PyStr × HAttr n)) (h : ¬ underscored name) :
    pubMethods ((name, HAttr.other) :: rest) = pubMethods rest := by
  simp [pubMethods, List.filter_cons, h]

theorem leads_snoc_inj (bp : List PyStr) (x y : PyStr) (t : List PyStr)
    (h : leads (bp ++ [x]) (bp ++ y :: t)) : x = y := by
  obtain ⟨s, hs⟩ := h
  rw [List.append_assoc] at hs
  have := List.append_cancel_left hs
  injection this with h1 _
  exact h1.symm

theorem append_nil_eq_cancel {α : Type} (visited new : List α)
    (h : visited = visited ++ new) : new = [] := by
  have : visited ++ ([] : List α) = visited ++ new := by
    rw [List.append_nil]
    exact h
  exact (List.append_cancel_left this).symm

/-- Dictionary accounting for the attribute loop, given the corresponding
fact for the nested `get_functions` calls at the same fuel: the loop
extends the dict by exactly one fresh entry per public method of the
processed attributes plus the contributions of newly visited referenced
objects; every new key is a dotted path below the current base extended by
the attribute's name. -/
theorem gf_dict_walk (heap : Heap n) (fuel : Nat)
    (hP : ∀ (oid : Fin n) (base : PyStr) (visited : List (Fin n)) fns out,
      get_functions heap fuel oid base visited fns = some out →
      (∀ k ∈ fns.map Prod.fst,
        ¬(leads (basePathOf base) (splitOnDot k) ∧
          splitOnDot k ≠ basePathOf base)) →
      ∀ new, out.1 = visited ++ new →
      ∃ newfns, out.2 = fns ++ newfns ∧
        (∀ kv ∈ newfns, leads (basePathOf base) (splitOnDot kv.1) ∧
          splitOnDot kv.1 ≠ basePathOf base) ∧
        newfns.length = (new.map (mcount heap)).sum) :
    ∀ (attrs : List (PyStr × HAttr n)) (base : PyStr)
      (visited : List (Fin n)) fns out,
      walkAttrs heap fuel attrs base visited fns = some out →
      (attrs.map Prod.fst).Nodup →
      (∀ a ∈ attrs, ('.' : Char) ∉ a.1 ∧ a.1 ≠ []) →
      (∀ k ∈ fns.map Prod.fst, ∀ a ∈ attrs, ¬underscored a.1 →
        ¬ leads (basePathOf base ++ [a.1]) (splitOnDot k)) →
      ∀ new, out.1 = visited ++ new →
      ∃ newfns, out.2 = fns ++ newfns ∧
        (∀ kv ∈ newfns, ∃ a ∈ attrs, ¬underscored a.1 ∧
          leads (basePathOf base ++ [a.1]) (splitOnDot kv.1)) ∧
        newfns.length = pubMethods attrs + (new.map (mcount heap)).sum := by
  intro attrs
  induction attrs with
  | nil =>
    intro base visited fns out h _ _ _ new hnew
    rw [walkAttrs_nil] at h
    injection h with h'
    subst h'
    have hnil : new = [] := append_nil_eq_cancel _ _ hnew
    subst hnil
    exact ⟨[], (List.append_nil _).symm,
      fun kv hkv => absurd hkv (List.not_mem_nil kv), rfl⟩
  | cons a rest ih =>
    intro base visited fns out h hnd hfn hfresh new hnew
    obtain ⟨name, attr⟩ := a
    by_cases hu : underscored name
    · rw [walkAttrs_underscore _ _ _ _ _ _ _ _ hu] at h
      obtain ⟨newfns, e1, e2, e3⟩ := ih _ _ _ _ h hnd.of_cons
        (fun a ha => hfn a (List.mem_cons_of_mem _ ha))
        (fun k hk a ha hna => hfresh k hk a (List.mem_cons_of_mem _ ha) hna)
        new hnew
      refine ⟨newfns, e1, ?_, by rw [e3, pubMethods_cons_und _ _ hu]⟩
      intro kv hkv
      obtain ⟨a, ha, hna, hl⟩ := e2 kv hkv
      exact ⟨a, List.mem_cons_of_mem _ ha, hna, hl⟩
    · cases attr with
      | method ps =>
        rw [walkAttrs_method _ _ _ _ _ _ _ _ hu] at h
        have hname := hfn (name, HAttr.method ps) (List.mem_cons_self _ _)
        have hkeypath : splitOnDot (fullNameOf base name)
            = basePathOf base ++ [name] :=
          fullNameOf_path base name hname.1 hname.2
        have hfreshkey : ∀ kv ∈ fns, kv.1 ≠ fullNameOf base name := by
          intro kv hkv he
          have hfr := hfresh kv.1 (List.mem_map_of_mem Prod.fst hkv)
            (name, HAttr.method ps) (List.mem_cons_self _ _) hu
          rw [he, hkeypath] at hfr
          exact hfr (leads_self _)
        rw [dinsert_append_of_fresh _ _ _ hfreshkey] at h
        have hfresh' : ∀ k ∈ (fns ++ [(fullNameOf base name, ps.drop 1)]).map
            Prod.fst, ∀ a ∈ rest, ¬underscored a.1 →
            ¬ leads (basePathOf base ++ [a.1]) (splitOnDot k) := by
          intro k hk a ha hna hl
          rw [List.map_append] at hk
          rcases List.mem_append.mp hk with hk' | hk'
          · exact hfresh k hk' a (List.mem_cons_of_mem _ ha) hna hl
          · have hkey : k = fullNameOf base name := by simpa using hk'
            subst hkey
            rw [hkeypath] at hl
            have : a.1 = name :=
              leads_snoc_inj (basePathOf base) a.1 name [] hl
            have hmem : name ∈ rest.map Prod.fst := by
              rw [← this]
              exact List.mem_map_of_mem Prod.fst ha
            exact (List.nodup_cons.mp hnd).1 hmem
        obtain ⟨newfns, e1, e2, e3⟩ := ih _ _ _ _ h hnd.of_cons
          (fun a ha => hfn a (List.mem_cons_of_mem _ ha)) hfresh' new hnew
        refine ⟨(fullNameOf base name, ps.drop 1) :: newfns, ?_, ?_, ?_⟩
        · rw [e1, List.append_assoc]
          rfl
        · intro kv hkv
          rcases List.mem_cons.mp hkv with rfl | hkv'
          · exact ⟨(name, HAttr.method ps), List.mem_cons_self _ _, hu,
              by rw [hkeypath]; exact leads_self _⟩
          · obtain ⟨a, ha, hna, hl⟩ := e2 kv hkv'
            exact ⟨a, List.mem_cons_of_mem _ ha, hna, hl⟩
        · simp only [List.length_cons, e3, pubMethods_cons_method _ _ hu]
          omega
      | objRef tid =>
        rw [walkAttrs_objRef _ _ _ _ _ _ _ _ hu] at h
        cases hg : get_functions heap fuel tid (fullNameOf base name)
            visited fns with
        | none =>
          rw [hg] at h
          exact Option.noConfusion h
        | some vf =>
          rw [hg] at h
          have hname := hfn (name, HAttr.objRef tid) (List.mem_cons_self _ _)
          have hbp' : basePathOf (fullNameOf base name)
              = basePathOf base ++ [name] :=
            basePathOf_fullNameOf base name hname.1 hname.2
          obtain ⟨new1, hv1, _, _⟩ := (gf_shape heap fuel).1 _ _ _ _ _ hg
          obtain ⟨newfns1, c1, c2, c3⟩ := hP _ _ _ _ _ hg
            (by
              intro k hk hcon
              rw [hbp'] at hcon
              exact hfresh k hk (name, HAttr.objRef tid)
                (List.mem_cons_self _ _) hu hcon.1)
            new1 hv1
          have hfresh' : ∀ k ∈ vf.2.map Prod.fst, ∀ a ∈ rest,
              ¬underscored a.1 →
              ¬ leads (basePathOf base ++ [a.1]) (splitOnDot k) := by
            intro k hk a ha hna hl
            rw [c1, List.map_append] at hk
            rcases List.mem_append.mp hk with hk' | hk'
            · exact hfresh k hk' a (List.mem_cons_of_mem _ ha) hna hl
            · obtain ⟨kv, hkv, hkveq⟩ := List.mem_map.mp hk'
              obtain ⟨hle, _⟩ := c2 kv hkv
              rw [hbp'] at hle
              obtain ⟨t, ht⟩ := hle
              rw [List.append_assoc] at ht
              rw [hkveq] at ht
              rw [ht] at hl
              have : a.1 = name :=
                leads_snoc_inj (basePathOf base) a.1 name t hl
              have hmem : name ∈ rest.map Prod.fst := by
                rw [← this]
                exact List.mem_map_of_mem Prod.fst ha
              exact (List.nodup_cons.mp hnd).1 hmem
          obtain ⟨new2, hv2, _, _⟩ := (gf_shape heap fuel).2 _ _ _ _ _ h
          obtain ⟨newfns2, r1, r2, r3⟩ := ih _ _ _ _ h hnd.of_cons
            (fun a ha => hfn a (List.mem_cons_of_mem _ ha)) hfresh' new2 hv2
          have hnewdec : new = new1 ++ new2 := by
            have : visited ++ new = visited ++ (new1 ++ new2) := by
              rw [← hnew, ← List.append_assoc, ← hv1, ← hv2]
            exact List.append_cancel_left this
          refine ⟨newfns1 ++ newfns2, ?_, ?_, ?_⟩
          · rw [r1, c1, List.append_assoc]
          · intro kv hkv
            rcases List.mem_append.mp hkv with hkv' | hkv'
            · obtain ⟨hle, _⟩ := c2 kv hkv'
              rw [hbp'] at hle
              exact ⟨(name, HAttr.objRef tid), List.mem_cons_self _ _, hu, hle⟩
            · obtain ⟨a, ha, hna, hl⟩ := r2 kv hkv'
              exact ⟨a, List.mem_cons_of_mem _ ha, hna, hl⟩
          · rw [List.length_append, c3, r3, hnewdec, List.map_append,
              List.sum_append, pubMethods_cons_objRef _ _ hu]
            omega
      | other =>
        rw [walkAttrs_other _ _ _ _ _ _ _ hu] at h
        obtain ⟨newfns, e1, e2, e3⟩ := ih _ _ _ _ h hnd.of_cons
          (fun a ha => hfn a (List.mem_cons_of_mem _ ha))
          (fun k hk a ha hna => hfresh k hk a (List.mem_cons_of_mem _ ha) hna)
          new hnew
        refine ⟨newfns, e1, ?_, by rw [e3, pubMethods_cons_other _ hu]⟩
        intro kv hkv
        obtain ⟨a, ha, hna, hl⟩ := e2 kv hkv
        exact ⟨a, List.mem_cons_of_mem _ ha, hna, hl⟩

/-- Dictionary accounting for `get_functions`: starting from a dict whose
keys do not lie strictly below the current base path, the walk appends one
fresh entry per public method of each newly visited object, so the dict
grows by exactly the sum of those method counts. -/
theorem gf_dict (heap : Heap n) (hWF : heapWF heap) (fuel : Nat) :
    ∀ (oid : Fin n) (base : PyStr) (visited : List (Fin n)) fns out,
      get_functions heap fuel oid base visited fns = some out →
      (∀ k ∈ fns.map Prod.fst,
        ¬(leads (basePathOf base) (splitOnDot k) ∧
          splitOnDot k ≠ basePathOf base)) →
      ∀ new, out.1 = visited ++ new →
      ∃ newfns, out.2 = fns ++ newfns ∧
        (∀ kv ∈ newfns, leads (basePathOf base) (splitOnDot kv.1) ∧
          splitOnDot kv.1 ≠ basePathOf base) ∧
        newfns.length = (new.map (mcount heap)).sum := by
  induction fuel with
  | zero =>
    intro oid base visited fns out h
    rw [get_functions_zero] at h
    exact Option.noConfusion h
  | succ fuel ih =>
    intro oid base visited fns out h hfresh new hnew
    by_cases hv : oid ∈ visited
    · rw [get_functions_succ_mem _ _ _ _ _ _ hv] at h
      injection h with h'
      subst h'
      have hnil : new = [] := append_nil_eq_cancel _ _ hnew
      subst hnil
      exact ⟨[], by simp, by simp, by simp⟩
    · rw [get_functions_succ_not_mem _ _ _ _ _ _ hv] at h
      obtain ⟨neww, hw, _, _⟩ := (gf_shape heap fuel).2 _ _ _ _ _ h
      have hfreshq : ∀ k ∈ fns.map Prod.fst, ∀ a ∈ (heap oid).attrs,
          ¬underscored a.1 →
          ¬ leads (basePathOf base ++ [a.1]) (splitOnDot k) := by
        intro k hk a ha hna hl
        have hfact := (hWF oid).2 a ha
        refine hfresh k hk ⟨leads_of_leads_append _ [a.1] _ hl, ?_⟩
        obtain ⟨t, ht⟩ := hl
        rw [List.append_assoc] at ht
        exact ne_of_leads_strict _ _ (a.1 :: t) (by simp) ht
      obtain ⟨newfns, e1, e2, e3⟩ := gf_dict_walk heap fuel ih _ _ _ _ _ h
        (hWF oid).1 (fun a ha => (hWF oid).2 a ha) hfreshq neww hw
      have hnewdec : new = oid :: neww := by
        have : visited ++ new = visited ++ (oid :: neww) := by
          rw [← hnew, hw, List.append_assoc]
          rfl
        exact List.append_cancel_left this
      refine ⟨newfns, e1, ?_, ?_⟩
      · intro kv hkv
        obtain ⟨a, ha, hna, hl⟩ := e2 kv hkv
        obtain ⟨t, ht⟩ := hl
        rw [List.append_assoc] at ht
        refine ⟨⟨a.1 :: t, ht⟩, ne_of_leads_strict _ _ (a.1 :: t) (by simp) ht⟩
      · rw [e3, hnewdec, List.map_cons, List.sum_cons]
        rfl

theorem alookup_dinsert_self [DecidableEq κ] (k : κ) (v : β)
    (l : List (κ × β)) : alookup k (dinsert k v l) = some v := by
  induction l with
  | nil => simp [dinsert, alookup]
  | cons x xs ih =>
    obtain ⟨k0, v0⟩ := x
    by_cases hk : k0 = k
    · rw [dinsert, if_pos hk, alookup, if_pos hk]
    · rw [dinsert, if_neg hk, alookup, if_neg hk]
      exact ih

theorem alookup_dinsert_ne [DecidableEq κ] (k k' : κ) (v : β)
    (l : List (κ × β)) (h : k' ≠ k) :
    alookup k' (dinsert k v l) = alookup k' l := by
  have hne : ¬(k = k') := fun he => h he.symm
  induction l with
  | nil => simp [dinsert, alookup, hne]
  | cons x xs ih =>
    obtain ⟨k0, v0⟩ := x
    by_cases hk : k0 = k
    · subst hk
      simp [dinsert, alookup, hne]
    · by_cases hk' : k0 = k'
      · simp [dinsert, alookup, hk, hk', h]
      · simp [dinsert, alookup, hk, hk', ih]

theorem alookup_eq_none_of_not_mem [DecidableEq κ] (k : κ)
    (l : List (κ × β)) (h : k ∉ l.map Prod.fst) : alookup k l = none := by
  induction l with
  | nil => rfl
  | cons x xs ih =>
    obtain ⟨k0, v0⟩ := x
    have hk0 : ¬(k0 = k) := by
      intro he
      exact h (by rw [List.map_cons, he]; exact List.mem_cons_self _ _)
    have hxs : k ∉ xs.map Prod.fst :=
      fun hm => h (by rw [List.map_cons]; exact List.mem_cons_of_mem _ hm)
    simp [alookup, hk0, ih hxs]

/-- `dict.update(other)` lookup: keys of `other` take precedence, all other
keys keep the value they had — update only adds or replaces entries. -/
theorem alookup_dictUpdate [DecidableEq κ] (e d : List (κ × β)) (k : κ)
    (hnd : (e.map Prod.fst).Nodup) :
    alookup k (dictUpdate d e)
      = match alookup k e with
        | some v => some v
        | none => alookup k d := by
  induction e generalizing d with
  | nil => rfl
  | cons x rest ih =>
    obtain ⟨k0, v0⟩ := x
    have hnd' := List.nodup_cons.mp hnd
    have hfold : dictUpdate d ((k0, v0) :: rest)
        = dictUpdate (dinsert k0 v0 d) rest := rfl
    by_cases hk : k0 = k
    · subst hk
      have hnone : alookup k0 rest = none :=
        alookup_eq_none_of_not_mem _ _ hnd'.1
      rw [hfold, ih _ hnd'.2, hnone]
      simp [alookup, alookup_dinsert_self]
    · rw [hfold, ih _ hnd'.2,
        alookup_dinsert_ne k0 k v0 d (fun he => hk he.symm)]
      simp [alookup, hk]

/-- C7: for every acyclic exposed object graph whose attribute names are
`dir()`-shaped identifiers (distinct per object, non-empty, dot-free), the
reflective walk produces a catalog whose size equals the number of public
bound-method attributes of the objects reachable from the root; every entry
carries the attribute's declared positional parameter names with the
implicit receiver dropped; and merging the explicitly registered ad-hoc
functions afterwards gives them precedence on name collision while only
adding or replacing entries — every existing key keeps a binding. -/
theorem generate_func_catalog (n : Nat) (heap : Heap n) (root : Fin n)
    (hWF : heapWF heap)
    (hacyc : ∀ i : Fin n, ¬ Relation.TransGen (edgeTo heap) i i)
    (windowFns : List (PyStr × List PyStr))
    (hw : (windowFns.map Prod.fst).Nodup) :
    ∃ v fns, getFunctionsRun heap root = some (v, fns) ∧
      (∃ R : Finset (Fin n),
        (∀ j, j ∈ R ↔ Relation.ReflTransGen (edgeTo heap) root j) ∧
        fns.length = ∑ j in R, mcount heap j) ∧
      (∀ kv ∈ fns, ∃ (j : Fin n) (name : PyStr) (ps : List PyStr),
        (name, HAttr.method ps) ∈ (heap j).attrs ∧ kv.2 = ps.drop 1) ∧
      (∃ cat, generate_func heap root windowFns = some cat ∧
        (∀ k v', alookup k windowFns = some v' → alookup k cat = some v') ∧
        (∀ k, alookup k windowFns = none → alookup k cat = alookup k fns)) := by
  obtain ⟨out, hout, hnodup, hroot⟩ := get_functions_terminates n heap root
  have hout' : get_functions heap (n + 1) root [] [] [] = some out := hout
  obtain ⟨hroot', hreach1, hclo⟩ := (gf_reach heap (n + 1)).1 _ _ _ _ _ hout'
  refine ⟨out.1, out.2, by rw [← hout], ?_, ?_, ?_⟩
  · refine ⟨out.1.toFinset, ?_, ?_⟩
    · intro j
      rw [List.mem_toFinset]
      constructor
      · intro hj
        rcases hreach1 j hj with hin | hr
        · exact absurd hin (List.not_mem_nil j)
        · exact hr
      · intro hr
        induction hr with
        | refl => exact hroot'
        | tail hstep hedge ih => exact hclo _ ih (List.not_mem_nil _) _ hedge
    · obtain ⟨newfns, e1, _, e3⟩ := gf_dict heap hWF (n + 1) root [] [] [] out
        hout' (by intro k hk; exact absurd hk (List.not_mem_nil k))
        out.1 (List.nil_append _).symm
      rw [List.sum_toFinset _ hnodup, e1, List.nil_append, e3]
  · intro kv hkv
    rcases (gf_values heap (n + 1)).1 _ _ _ _ _ hout' kv hkv with hin | hx
    · exact absurd hin (List.not_mem_nil kv)
    · exact hx
  · have hexp : (if 0 < windowFns.length then windowFns else []) = windowFns := by
      cases windowFns with
      | nil => rfl
      | cons a l => simp
    refine ⟨dictUpdate out.2 windowFns, ?_, ?_, ?_⟩
    · rw [generate_func, hout, hexp]
    · intro k v' hkv
      rw [alookup_dictUpdate windowFns out.2 k hw, hkv]
    · intro k hk
      rw [alookup_dictUpdate windowFns out.2 k hw, hk]

/-- Witness for C7 at the concrete two-object graph `heapW` with one ad-hoc
registration: all hypotheses hold and the conclusion is obtained by applying
the theorem. -/
theorem generate_func_catalog_witness :
    ∃ v fns, getFunctionsRun heapW 0 = some (v, fns) ∧
      (∃ R : Finset (Fin 2),
        (∀ j, j ∈ R ↔ Relation.ReflTransGen (edgeTo heapW) 0 j) ∧
        fns.length = ∑ j in R, mcount heapW j) ∧
      (∀ kv ∈ fns, ∃ (j : Fin 2) (name : PyStr) (ps : List PyStr),
        (name, HAttr.method ps) ∈ (heapW j).attrs ∧ kv.2 = ps.drop 1) ∧
      (∃ cat, generate_func heapW 0 [("adhoc".data, ["x".data])] = some cat ∧
        (∀ k v', alookup k [("adhoc".data, ["x".data])] = some v' →
          alookup k cat = some v') ∧
        (∀ k, alookup k [("adhoc".data, ["x".data])] = none →
          alookup k cat = alookup k fns)) := by
  have hedge : ∀ i j : Fin 2, edgeTo heapW i j → (i : Nat) < (j : Nat) := by
    decide
  have hacyc : ∀ i : Fin 2, ¬ Relation.TransGen (edgeTo heapW) i i := by
    have hlt : ∀ a b : Fin 2, Relation.TransGen (edgeTo heapW) a b →
        (a : Nat) < (b : Nat) := by
      intro a b h
      induction h with
      | single e => exact hedge _ _ e
      | tail _ e ih => exact lt_trans ih (hedge _ _ e)
    intro i hi
    exact absurd (hlt i i hi) (lt_irrefl _)
  exact generate_func_catalog 2 heapW 0 (by decide) hacyc
    [("adhoc".data, ["x".data])] (by decide)
